import Mathlib

/-!
Shallow embedding of the tree-sitter-offload core (Rust) and proofs about it.

Coordinate convention of the source: one native (UTF-16) text unit equals two
internal "byte" units; public boundaries divide by two on the way out and
multiply by two on the way in.
-/

namespace TSO

/-- `tree_sitter::Point`. -/
structure TSPoint where
  row : Nat
  column : Nat
deriving DecidableEq, Repr

/-- `tree_sitter::Range` (byte offsets in internal doubled units). -/
structure TSRange where
  startByte : Nat
  endByte : Nat
  startPoint : TSPoint
  endPoint : TSPoint
deriving DecidableEq, Repr

/-- `tree_sitter::InputEdit` (all fields already doubled by the JNI boundary). -/
structure InputEdit where
  startByte : Nat
  oldEndByte : Nat
  newEndByte : Nat
  startPosition : TSPoint
  oldEndPosition : TSPoint
  newEndPosition : TSPoint
deriving DecidableEq, Repr

/-- `language_registry::UnknownLanguage`. -/
inductive UnknownLanguage where
  | languageName (s : List Char)
  | languageMimetype (s : List Char)
deriving DecidableEq, Repr

/-- Rust `as usize` after `i32` arithmetic: wrap into the 64-bit unsigned range. -/
def usizeOf (i : Int) : Nat := (i.emod (2 ^ 64)).toNat

/-- `query::CaptureOffset` (src/query.rs). Offsets are stored already doubled. -/
structure CaptureOffset where
  startOffset : Int
  endOffset : Int
deriving DecidableEq, Repr

/-- `CaptureOffset::new`. -/
def CaptureOffset.new (startOffset endOffset : Int) : CaptureOffset :=
  { startOffset := startOffset, endOffset := endOffset }

/-- `CaptureOffset::apply_to_range` (src/query.rs lines 75-95), transcribed
faithfully: the source adds `self.start_offset` to both `start_byte` and
`end_byte`, while `end_offset` is only applied to `end_point.column`. -/
def CaptureOffset.applyToRange (o : CaptureOffset) (r : TSRange) : TSRange :=
  { startByte := usizeOf ((r.startByte : Int) + o.startOffset)
    endByte := usizeOf ((r.endByte : Int) + o.startOffset)
    startPoint := { row := r.startPoint.row
                    column := usizeOf ((r.startPoint.column : Int) + o.startOffset) }
    endPoint := { row := r.endPoint.row
                  column := usizeOf ((r.endPoint.column : Int) + o.endOffset) } }

/-- Modelled from the spec: `offset!(capture, start-delta, end-delta)` "shifts a
captured range's start/end coordinates by fixed amounts"; the end byte is
shifted by the end delta. This is the specification-side counterpart used to
compare with `CaptureOffset.applyToRange` above. -/
def CaptureOffset.applyToRangeSpecified (o : CaptureOffset) (r : TSRange) : TSRange :=
  { startByte := usizeOf ((r.startByte : Int) + o.startOffset)
    endByte := usizeOf ((r.endByte : Int) + o.endOffset)
    startPoint := { row := r.startPoint.row
                    column := usizeOf ((r.startPoint.column : Int) + o.startOffset) }
    endPoint := { row := r.endPoint.row
                  column := usizeOf ((r.endPoint.column : Int) + o.endOffset) } }

/-- The `offset!` compilation step of `InjectionQuery::new` (src/injections.rs
line 179): native deltas are doubled once at compile time. -/
def compileOffsetPredicate (arg1 arg2 : Int) : CaptureOffset :=
  CaptureOffset.new (arg1 * 2) (arg2 * 2)

/-! ## Predicate engine (src/predicates.rs) -/

/-- One capture inside a query match: capture index plus the captured node's
data (range and kind), as far as the predicate/highlight code inspects it. -/
structure QMCapture where
  index : Nat
  node : TSRange
  nodeKind : Nat
deriving DecidableEq, Repr

/-- `tree_sitter::QueryMatch` as consumed by this crate: pattern index and the
capture list. -/
structure QueryMatchM where
  patternIndex : Nat
  captures : List QMCapture
deriving DecidableEq, Repr

/-- `QueryMatch::nodes_for_capture_index`: all captured nodes with the given
capture index, in capture order. -/
def nodesForCaptureIndex (m : QueryMatchM) (idx : Nat) : List QMCapture :=
  m.captures.filter (fun c => c.index = idx)

/-- Rust `str::contains`: substring containment on the decoded text. -/
def containsSub : List Char → List Char → Bool
  | t, p =>
    p.isPrefixOf t ||
      match t with
      | [] => false
      | _ :: t' => containsSub t' p

/-- `predicates::ContainsPredicate` (compiled form of `contains?`,
`not-contains?`, `any-contains?`, `any-not-contains?`). -/
structure ContainsPredicate where
  captureId : Nat
  pattern : List Char
  isPositive : Bool
  matchAll : Bool
deriving DecidableEq, Repr

/-- The node loop of `ContainsPredicate::check_predicate`
(src/predicates.rs lines 169-180). `texts` abstracts the
`TextProviderPredicate` giving each captured node's text. -/
def checkPredicateLoop (p : ContainsPredicate) (texts : QMCapture → List Char) :
    List QMCapture → Bool
  | [] => p.matchAll
  | n :: rest =>
    let doesMatch := containsSub (texts n) p.pattern
    if doesMatch ≠ p.isPositive ∧ p.matchAll then false
    else if doesMatch = p.isPositive ∧ ¬p.matchAll then true
    else checkPredicateLoop p texts rest

/-- `ContainsPredicate::check_predicate` (src/predicates.rs lines 163-182). -/
def ContainsPredicate.checkPredicate (p : ContainsPredicate) (mat : QueryMatchM)
    (texts : QMCapture → List Char) : Bool :=
  checkPredicateLoop p texts (nodesForCaptureIndex mat p.captureId)

/-- The operator table of `ContainsPredicateParser::parse_predicate`
(src/predicates.rs lines 106-117): `(is_positive, match_all)` per operator. -/
def containsOperator (captureId : Nat) (pattern : List Char)
    (isPositive matchAll : Bool) : ContainsPredicate :=
  { captureId := captureId, pattern := pattern
    isPositive := isPositive, matchAll := matchAll }

/-! ## Highlight capture collection (src/highlighting_lexer/query.rs) -/

/-- The highlights map of `collect_highlights_for_range`: a finite map from an
exact byte range to `(language, capture id, pattern index)`, modelling the
Rust `HashMap<Range<usize>, (LanguageId, u16, usize)>` as an association
list (insertion overwrites, lookup finds the unique binding). -/
abbrev HighlightMap := List ((Nat × Nat) × (Nat × Nat × Nat))

def hmGet (m : HighlightMap) (k : Nat × Nat) : Option (Nat × Nat × Nat) :=
  (m.find? (fun e => e.1 = k)).map (fun e => e.2)

def hmInsert (m : HighlightMap) (k : Nat × Nat) (v : Nat × Nat × Nat) : HighlightMap :=
  if (m.find? (fun e => e.1 = k)).isSome then
    m.map (fun e => if e.1 = k then (k, v) else e)
  else
    m ++ [(k, v)]

/-- One `(match, capture-index)` item of the streaming `captures` iterator of
`collect_highlights_for_range`. -/
structure CaptureItem where
  qmatch : QueryMatchM
  cidx : Nat
deriving Repr

/-- One intersecting `Parsed` entry as seen by `collect_highlights_for_range`:
its language, the visibility bitset `query.2`, the predicate outcome of
`query.1.satisfies_predicates` (which consults the external text provider),
and the capture stream produced by the external query cursor. -/
structure EntryCaptures where
  language : Nat
  visible : Nat → Bool
  passes : QueryMatchM → Bool
  items : List CaptureItem

/-- The per-capture body of the `while let Some((next_match, cidx))` loop in
`collect_highlights_for_range` (src/highlighting_lexer/query.rs
lines 103-123). -/
def processCapture (language : Nat) (visible : Nat → Bool)
    (passes : QueryMatchM → Bool) (m : HighlightMap) (it : CaptureItem) :
    HighlightMap :=
  if ¬passes it.qmatch then m
  else
    match it.qmatch.captures.get? it.cidx with
    | none => m
    | some capture =>
      let range := (capture.node.startByte, capture.node.endByte)
      let captureId := capture.index
      if ¬visible captureId then m
      else
        match hmGet m range with
        | some (otherLanguage, _, patternIndex) =>
          if otherLanguage = language ∧ it.qmatch.patternIndex < patternIndex then m
          else hmInsert m range (language, captureId, it.qmatch.patternIndex)
        | none => hmInsert m range (language, captureId, it.qmatch.patternIndex)

/-- `collect_highlights_for_range` (src/highlighting_lexer/query.rs
lines 79-126), with the external query-cursor results supplied per entry. -/
def collectHighlightsForRange (entries : List EntryCaptures) : HighlightMap :=
  entries.foldl
    (fun m e => e.items.foldl (processCapture e.language e.visible e.passes) m) []

/-! ## Fold-range combination and trimming (src/ranges.rs, nativeGetFoldRanges) -/

/-- The pattern properties consulted by the fold loop: `fold.text`,
`fold.collapsed` and `fold.combined-lines`
(src/ranges.rs lines 353-379). -/
structure FoldProps where
  foldText : Option (List Char)
  collapsed : Bool
  combinedLines : Bool
deriving Repr

/-- One element of `combined_ranges`:
`(pattern_id, range, collapsed_by_default, collapsed_text, next_byte)`. -/
structure FoldItem where
  patternId : Nat
  range : TSRange
  collapsed : Bool
  text : Option (List Char)
  nextByte : Nat
deriving DecidableEq, Repr

/-- State of the combination loop: `combined_ranges` plus `last_combined_idx`
(the `HashMap<usize, usize>` keyed by pattern id, as a function). -/
structure FoldCombineState where
  combined : List FoldItem
  lastCombinedIdx : Nat → Option Nat

/-- The body of the `'outer` loop of `nativeGetFoldRanges`
(src/ranges.rs lines 347-387) for one collected result
`(pattern_id, range, next_byte)`. -/
def foldCombineStep (props : Nat → FoldProps) (st : FoldCombineState)
    (item : Nat × TSRange × Nat) : FoldCombineState :=
  let (patternId, range, nextByte) := item
  let p := props patternId
  let pushed : FoldItem :=
    { patternId := patternId, range := range, collapsed := p.collapsed
      text := p.foldText, nextByte := nextByte }
  if p.combinedLines then
    match (st.lastCombinedIdx patternId).bind
        (fun idx => (st.combined.get? idx).map (fun last => (idx, last))) with
    | some (idx, last) =>
      if last.nextByte = range.startByte ∧
          range.startPoint.column = last.range.startPoint.column ∧
          (last.range.endPoint.row + 1 = range.startPoint.row ∨
            last.range.endPoint.row = range.startPoint.row) then
        { combined := st.combined.set idx
            { last with
              range := { last.range with
                endByte := range.endByte, endPoint := range.endPoint }
              nextByte := nextByte }
          lastCombinedIdx := st.lastCombinedIdx }
      else
        { combined := st.combined ++ [pushed]
          lastCombinedIdx := fun pid =>
            if pid = patternId then some st.combined.length
            else st.lastCombinedIdx pid }
    | none =>
      { combined := st.combined ++ [pushed]
        lastCombinedIdx := fun pid =>
          if pid = patternId then some st.combined.length
          else st.lastCombinedIdx pid }
  else
    { combined := st.combined ++ [pushed]
      lastCombinedIdx := st.lastCombinedIdx }

/-- The fold-combination stage of `nativeGetFoldRanges` over the results of
`collect_ranges`, in collection order. -/
def foldCombine (props : Nat → FoldProps) (items : List (Nat × TSRange × Nat)) :
    List FoldItem :=
  (items.foldl (foldCombineStep props)
    { combined := [], lastCombinedIdx := fun _ => none }).combined

/-- `char::decode_utf16(...).count()`: number of decoded items (a surrogate
pair counts once; an unpaired surrogate also yields one item). -/
def utf16Count : List Nat → Nat
  | [] => 0
  | u :: rest =>
    if 0xD800 ≤ u ∧ u ≤ 0xDBFF then
      match rest with
      | [] => 1
      | v :: rest' =>
        if 0xDC00 ≤ v ∧ v ≤ 0xDFFF then 1 + utf16Count rest'
        else 1 + utf16Count (v :: rest')
    else 1 + utf16Count rest

/-- The backwards line-start scan of the fold trimming code
(src/ranges.rs lines 401-408): repeatedly step left until the unit before the
current offset is a newline or the left edge is reached, returning the
resulting line-start offset (in native units). -/
def lineStartLoop (text : List Nat) : Nat → Nat
  | 0 => 0
  | offset + 1 =>
    let newOffset := offset
    if text.getD newOffset 0 = 10 ∨ newOffset = 0 then offset + 1
    else lineStartLoop text newOffset

/-- The trailing-newline trimming applied to each combined fold range
(src/ranges.rs lines 396-415), in internal (doubled) coordinates. The unit
value 10 is `'\n'`. Note the source counts the empty slice
`text_buffer[line_start_offset..line_start_offset]`. -/
def foldTrimRange (text : List Nat) (r : TSRange) : TSRange :=
  if text.getD (r.endByte / 2 - 1) 0 = 10 then
    let endByte := r.endByte - 1
    let endRow := r.endPoint.row - 1
    let lineEndOffset := endByte / 2 - 1
    let lineStartOffset := lineStartLoop text lineEndOffset
    let column := utf16Count
      ((text.drop lineStartOffset).take (lineStartOffset - lineStartOffset))
    { r with endByte := endByte, endPoint := { row := endRow, column := column } }
  else r

/-- The Java-boundary conversion of a `Point` (jni_utils.rs,
`PointDesc::to_java_object`): the column is divided by two. -/
def emitPoint (p : TSPoint) : TSPoint :=
  { row := p.row, column := p.column / 2 }

/-- The Java-boundary conversion of a `Range` (jni_utils.rs,
`RangeDesc::to_java_object`): byte offsets divided by two, points converted. -/
def emitRange (r : TSRange) : TSRange :=
  { startByte := r.startByte / 2, endByte := r.endByte / 2
    startPoint := emitPoint r.startPoint, endPoint := emitPoint r.endPoint }

/-- The per-range emission step of `nativeGetFoldRanges`: trim a combined fold
range, then convert it at the Java boundary. -/
def emitFoldRange (text : List Nat) (r : TSRange) : TSRange :=
  emitRange (foldTrimRange text r)

/-- Modelled from the spec: the end column the trimming is required to produce
("the end column equals the number of native units between that line's start
and the new range end"), computed from the same scan. -/
def claimedEndColumn (text : List Nat) (r : TSRange) : Nat :=
  let endByte := r.endByte - 1
  let lineEndOffset := endByte / 2 - 1
  let lineStartOffset := lineStartLoop text lineEndOffset
  endByte / 2 - lineStartOffset

/-! ## Injection query (src/injections.rs) -/

/-- `injections::InjectionMatch`. -/
structure InjectionMatchM where
  id : Nat
  language : UnknownLanguage
  enclosingByteRange : Nat × Nat
  includedRanges : List TSRange
  combined : Bool
  includeChildren : Bool
deriving Repr

/-- `injections::InjectionInfo` for one pattern: static language override,
per-capture `offset!` adjustments, and the combine/include-children flags. -/
structure InjInfo where
  language : Option UnknownLanguage
  offsets : Nat → Option CaptureOffset
  combined : Bool
  includeChildren : Bool

/-- The compiled `InjectionQuery` data consulted by `collect_injections`. -/
structure InjQueryM where
  contentCaptureId : Nat
  languageCaptureId : Option Nat
  mimetypeCaptureId : Option Nat
  injections : Nat → InjInfo

/-- State while collecting injections: the result vector and
`injection_ranges : HashMap<Range<usize>, usize>` as a function. -/
structure InjCollectState where
  injections : List InjectionMatchM
  injectionRanges : Nat × Nat → Option Nat

/-- The per-capture accumulation inside `collect_injections`
(src/injections.rs lines 220-241): gather content ranges (offset-adjusted)
and resolve the inline language/mimetype captures. `textOf` abstracts
`String::from_utf16_lossy` over a native-unit slice of the document. -/
def injCaptureFold (q : InjQueryM) (info : InjInfo)
    (textOf : Nat × Nat → List Char) (captures : List QMCapture) :
    List TSRange × Option UnknownLanguage :=
  captures.foldl
    (fun (acc : List TSRange × Option UnknownLanguage) c =>
      let (queryRanges, queryLanguage) := acc
      let range :=
        match info.offsets c.index with
        | some o => o.applyToRange c.node
        | none => c.node
      let queryRanges :=
        if q.contentCaptureId = c.index then queryRanges ++ [range] else queryRanges
      let queryLanguage :=
        if q.languageCaptureId = some c.index then
          some (UnknownLanguage.languageName
            (textOf (range.startByte / 2, range.endByte / 2)))
        else queryLanguage
      let queryLanguage :=
        if q.mimetypeCaptureId = some c.index then
          some (UnknownLanguage.languageMimetype
            (textOf (range.startByte / 2, range.endByte / 2)))
        else queryLanguage
      (queryRanges, queryLanguage))
    ([], none)

/-- The merge-or-append step of `collect_injections`
(src/injections.rs lines 257-276): matches sharing an enclosing byte range
overwrite the earlier entry (last write wins), others are appended and
remembered in `injection_ranges`. -/
def injInsert (st : InjCollectState) (newMatch : InjectionMatchM) :
    InjCollectState :=
  match st.injectionRanges newMatch.enclosingByteRange with
  | some injectionIdx =>
    { injections := st.injections.set injectionIdx newMatch
      injectionRanges := st.injectionRanges }
  | none =>
    { injections := st.injections ++ [newMatch]
      injectionRanges := fun k =>
        if k = newMatch.enclosingByteRange then some st.injections.length
        else st.injectionRanges k }

/-- The body of the match loop of `collect_injections`
(src/injections.rs lines 210-277) for one query match. -/
def injProcessMatch (q : InjQueryM) (textOf : Nat × Nat → List Char)
    (passes : QueryMatchM → Bool) (st : InjCollectState) (m : QueryMatchM) :
    InjCollectState :=
  if ¬passes m then st
  else
    let info := q.injections m.patternIndex
    let (queryRanges, queryLanguage) := injCaptureFold q info textOf m.captures
    match queryRanges with
    | [] => st
    | rangeStart :: restRanges =>
      let language? :=
        match info.language with
        | some l => some l
        | none => queryLanguage
      match language? with
      | none => st
      | some language =>
        let rangeEnd := (rangeStart :: restRanges).getLast (List.cons_ne_nil _ _)
        injInsert st
          { id := m.patternIndex, language := language
            enclosingByteRange := (rangeStart.startByte, rangeEnd.endByte)
            includedRanges := rangeStart :: restRanges
            combined := info.combined, includeChildren := info.includeChildren }

/-- `InjectionQuery::collect_injections` (src/injections.rs lines 195-280):
fold over the per-changed-range match streams produced by the external query
cursor (whose one-unit range expansion happens on the external side). -/
def collectInjectionsM (q : InjQueryM) (textOf : Nat × Nat → List Char)
    (passes : QueryMatchM → Bool) (matchStreams : List (List QueryMatchM)) :
    List InjectionMatchM :=
  (matchStreams.foldl
    (fun (st : InjCollectState) (ms : List QueryMatchM) =>
      ms.foldl (injProcessMatch q textOf passes) st)
    ({ injections := [], injectionRanges := fun _ => none } : InjCollectState)).injections

/-! ## Snapshot builder (src/syntax_snapshot.rs) -/

/-- `ParseCommandLanguage`. -/
inductive ParseCommandLanguage where
  | known (id : Nat)
  | unknown (l : UnknownLanguage)
deriving DecidableEq, Repr

/-- `ParseCommand`. -/
structure ParseCommand where
  depth : Nat
  language : ParseCommandLanguage
  includedRanges : List TSRange
  byteRange : Nat × Nat
  byteOffset : Nat
  pointOffset : TSPoint
deriving DecidableEq, Repr

/-- `ParseCommand::language_id`. -/
def ParseCommand.languageId (c : ParseCommand) : Option Nat :=
  match c.language with
  | .known id => some id
  | .unknown _ => none

/-- The priority key of `Ord for ParseCommand`: depth, then byte-range start,
then byte-range end (the heap's `.reverse()` makes pops take the minimum). -/
def cmdKey (c : ParseCommand) : Nat × Nat × Nat :=
  (c.depth, c.byteRange.1, c.byteRange.2)

def keyLe (a b : Nat × Nat × Nat) : Bool :=
  a.1 < b.1 ∨ (a.1 = b.1 ∧ (a.2.1 < b.2.1 ∨ (a.2.1 = b.2.1 ∧ a.2.2 ≤ b.2.2)))

/-- Pop a minimal-priority command from the queue (`BinaryHeap::pop` with the
reversed ordering); ties resolved to the earliest queued, which fixes one of
the behaviours the unordered heap may exhibit. -/
def popMin : List ParseCommand → Option (ParseCommand × List ParseCommand)
  | [] => none
  | c :: rest =>
    match popMin rest with
    | none => some (c, [])
    | some (m, rest') =>
      if keyLe (cmdKey c) (cmdKey m) then some (c, rest) else some (m, c :: rest')

/-- `sub_point` (src/syntax_snapshot.rs lines 150-162); `saturating_sub` is
plain `Nat` subtraction. -/
def subPoint (p1 p2 : TSPoint) : TSPoint :=
  if p1.row = p2.row then { row := 0, column := p1.column - p2.column }
  else { row := p1.row - p2.row, column := p1.column }

/-- The included-range translation into the subtree's local coordinate space
(src/syntax_snapshot.rs lines 212-218 and 327-333). -/
def translateRange (byteOffset : Nat) (pointOffset : TSPoint) (r : TSRange) : TSRange :=
  { startByte := r.startByte - byteOffset
    startPoint := subPoint r.startPoint pointOffset
    endByte := r.endByte - byteOffset
    endPoint := subPoint r.endPoint pointOffset }

/-- `SyntaxSnapshotEntryContent`, polymorphic in the external tree type. -/
inductive EntryContent (Tree : Type) where
  | parsed (language : Nat) (tree : Tree)
  | unparsed (l : UnknownLanguage)
deriving Repr

/-- `SyntaxSnapshotEntry`. -/
structure Entry (Tree : Type) where
  depth : Nat
  content : EntryContent Tree
  byteRange : Nat × Nat
  byteOffset : Nat
  pointOffset : TSPoint
deriving Repr

/-- `SyntaxSnapshot`. -/
structure Snapshot (Tree : Type) where
  entries : List (Entry Tree)
deriving Repr

/-- The external collaborators of the builder: the language registry, the
parsing engine, injection collection over a parsed tree, and (for the
incremental path) `tree.edit` on a clone and `changed_ranges`. -/
structure BuildEnv (Tree : Type) where
  /-- `with_language`: `some hasInjectionsQuery` on success, `none` when the
  registry has no language with this id (the `LanguageError` case). -/
  lookup : Nat → Option Bool
  /-- `ParseCommand::source_language` for a known id: the language name (with
  the registry's fallback text folded in, since the Rust fallback also
  produces a name). -/
  langName : Nat → List Char
  /-- `with_unknown_language` / `with_language_by_name` resolution. -/
  lookupByName : List Char → Option Nat
  /-- The external parse primitive: language id, translated included ranges,
  native slice bounds `byte_range.start/2 .. byte_range.end/2`, and the
  optional old tree; `none` is total parse failure. -/
  parse : Nat → List TSRange → Nat → Nat → Option Tree → Option Tree
  /-- `injections_query.collect_injections` over the freshly parsed tree
  offset by the command's byte/point offsets, restricted to the command's
  byte range. -/
  collectInjections : Nat → Tree → Nat → TSPoint → Nat × Nat → List InjectionMatchM
  /-- `tree.edit(&edit)` applied to a clone of the old tree. -/
  applyEdit : InputEdit → Tree → Tree
  /-- `old_tree.changed_ranges(&tree)`. -/
  changedRanges : Tree → Tree → List TSRange

/-- `with_unknown_language`: only language names resolve; mimetypes always
fail (src/language_registry.rs lines 191-200). -/
def resolveUnknown {Tree : Type} (env : BuildEnv Tree) :
    UnknownLanguage → Option Nat
  | .languageName s => env.lookupByName s
  | .languageMimetype _ => none

/-- `ParseCommand::from_injection` (src/syntax_snapshot.rs lines 77-96). The
`none` result models the Rust panic of
`.expect("injection always has at least one range")` on an empty range list. -/
def ParseCommand.fromInjection {Tree : Type} (env : BuildEnv Tree)
    (injection : InjectionMatchM) (depth : Nat) : Option ParseCommand :=
  match injection.includedRanges.head? with
  | none => none
  | some injectionStart =>
    let language :=
      match resolveUnknown env injection.language with
      | some id => ParseCommandLanguage.known id
      | none => ParseCommandLanguage.unknown injection.language
    some
      { depth := depth
        language := language
        includedRanges := injection.includedRanges
        byteRange := injection.enclosingByteRange
        byteOffset := injectionStart.startByte
        pointOffset := injectionStart.startPoint }

/-- `ParseCommand::source_language` (the unparsed-entry language text). -/
def sourceLanguage {Tree : Type} (env : BuildEnv Tree) (c : ParseCommand) :
    UnknownLanguage :=
  match c.language with
  | .known id => .languageName (env.langName id)
  | .unknown l => l

/-- `SyntaxSnapshotEntry::new_unparsed`. -/
def newUnparsedEntry {Tree : Type} (env : BuildEnv Tree) (c : ParseCommand) :
    Entry Tree :=
  { depth := c.depth
    content := .unparsed (sourceLanguage env c)
    byteRange := c.byteRange
    byteOffset := c.byteOffset
    pointOffset := c.pointOffset }

/-- The `Parsed` entry pushed after a successful parse. -/
def newParsedEntry {Tree : Type} (c : ParseCommand) (languageId : Nat)
    (tree : Tree) : Entry Tree :=
  { depth := c.depth
    content := .parsed languageId tree
    byteRange := c.byteRange
    byteOffset := c.byteOffset
    pointOffset := c.pointOffset }

/-- The child commands queued for the injections found in a fresh tree
(src/syntax_snapshot.rs lines 230-241); a `fromInjection` panic is modelled
by dropping the command. -/
def childCommands {Tree : Type} (env : BuildEnv Tree) (hasInjections : Bool)
    (languageId : Nat) (tree : Tree) (c : ParseCommand) : List ParseCommand :=
  if hasInjections then
    (env.collectInjections languageId tree c.byteOffset c.pointOffset
        c.byteRange).filterMap
      (fun injection => ParseCommand.fromInjection env injection (c.depth + 1))
  else []

/-- The work loop of `SyntaxSnapshot::parse` (src/syntax_snapshot.rs
lines 200-254), fuelled; `none` is the aborted build (a registry error, or
fuel exhaustion standing for non-termination). -/
def parseLoop {Tree : Type} (env : BuildEnv Tree) :
    Nat → List ParseCommand → List (Entry Tree) → Option (List (Entry Tree))
  | 0, _, _ => none
  | fuel + 1, queue, entries =>
    match popMin queue with
    | none => some entries
    | some (parseCommand, queue') =>
      match parseCommand.languageId with
      | none =>
        parseLoop env fuel queue' (entries ++ [newUnparsedEntry env parseCommand])
      | some languageId =>
        match env.lookup languageId with
        | none => none
        | some hasInjections =>
          let includedRanges := parseCommand.includedRanges.map
            (translateRange parseCommand.byteOffset parseCommand.pointOffset)
          match env.parse languageId includedRanges (parseCommand.byteRange.1 / 2)
              (parseCommand.byteRange.2 / 2) none with
          | none =>
            parseLoop env fuel queue' (entries ++ [newUnparsedEntry env parseCommand])
          | some tree =>
            parseLoop env fuel
              (queue' ++ childCommands env hasInjections languageId tree parseCommand)
              (entries ++ [newParsedEntry parseCommand languageId tree])

/-- The root command of both construction paths. -/
def rootCommand (baseLanguageId textLen : Nat) : ParseCommand :=
  { depth := 0
    language := .known baseLanguageId
    includedRanges := []
    byteRange := (0, textLen * 2)
    byteOffset := 0
    pointOffset := { row := 0, column := 0 } }

/-- Whether the first entry is `Parsed` (the final check of both paths,
src/syntax_snapshot.rs lines 255-267). -/
def firstEntryParsed {Tree : Type} : List (Entry Tree) → Bool
  | { content := .parsed _ _, .. } :: _ => true
  | _ => false

/-- `SyntaxSnapshot::parse` (src/syntax_snapshot.rs lines 189-268). -/
def snapshotParse {Tree : Type} (env : BuildEnv Tree) (fuel : Nat)
    (baseLanguageId textLen : Nat) : Option (Snapshot Tree) :=
  match parseLoop env fuel [rootCommand baseLanguageId textLen] [] with
  | none => none
  | some entries =>
    if !entries.isEmpty && firstEntryParsed entries then some { entries := entries }
    else none

/-- The tree-reuse decision of `parse_incremental`
(src/syntax_snapshot.rs lines 305-326): only the depth-0 command may reuse
the old root tree, and only when the edit-adjusted old end byte equals the
new root's end byte and the languages agree; the reused tree is a clone with
the edit applied. -/
def oldTreeFor {Tree : Type} (env : BuildEnv Tree) (oldSnapshot : Snapshot Tree)
    (edit : InputEdit) (parseCommand : ParseCommand) (languageId : Nat) :
    Option Tree :=
  if parseCommand.depth = 0 then
    match oldSnapshot.entries.head? with
    | none => none
    | some oldEntry =>
      if oldEntry.byteRange.2 ≥ edit.oldEndByte ∧
          (oldEntry.byteRange.2 - edit.oldEndByte) + edit.newEndByte
            = parseCommand.byteRange.2 then
        match oldEntry.content with
        | .parsed language tree =>
          if language = languageId then some (env.applyEdit edit tree) else none
        | .unparsed _ => none
      else none
  else none

/-- The changed-range contribution of one successful parse
(src/syntax_snapshot.rs lines 345-350): a reused root contributes the
external `changed_ranges`, a fresh parse contributes its translated
included-ranges list. -/
def changedContribution {Tree : Type} (env : BuildEnv Tree)
    (oldTree : Option Tree) (tree : Tree) (includedRanges : List TSRange) :
    List TSRange :=
  match oldTree with
  | some old => env.changedRanges old tree
  | none => includedRanges

/-- The work loop of `SyntaxSnapshot::parse_incremental`
(src/syntax_snapshot.rs lines 293-375), fuelled. -/
def parseIncrLoop {Tree : Type} (env : BuildEnv Tree) (oldSnapshot : Snapshot Tree)
    (edit : InputEdit) :
    Nat → List ParseCommand → List (Entry Tree) → List TSRange →
      Option (List (Entry Tree) × List TSRange)
  | 0, _, _, _ => none
  | fuel + 1, queue, entries, changedRanges =>
    match popMin queue with
    | none => some (entries, changedRanges)
    | some (parseCommand, queue') =>
      match parseCommand.languageId with
      | none =>
        parseIncrLoop env oldSnapshot edit fuel queue'
          (entries ++ [newUnparsedEntry env parseCommand]) changedRanges
      | some languageId =>
        match env.lookup languageId with
        | none => none
        | some hasInjections =>
          let oldTree := oldTreeFor env oldSnapshot edit parseCommand languageId
          let includedRanges := parseCommand.includedRanges.map
            (translateRange parseCommand.byteOffset parseCommand.pointOffset)
          match env.parse languageId includedRanges (parseCommand.byteRange.1 / 2)
              (parseCommand.byteRange.2 / 2) oldTree with
          | none =>
            parseIncrLoop env oldSnapshot edit fuel queue'
              (entries ++ [newUnparsedEntry env parseCommand]) changedRanges
          | some tree =>
            parseIncrLoop env oldSnapshot edit fuel
              (queue' ++ childCommands env hasInjections languageId tree parseCommand)
              (entries ++ [newParsedEntry parseCommand languageId tree])
              (changedRanges ++ changedContribution env oldTree tree includedRanges)

/-- The edit's own span, pushed first into the changed-range list
(src/syntax_snapshot.rs lines 279-284). -/
def editRange (edit : InputEdit) : TSRange :=
  { startByte := edit.startByte
    endByte := edit.newEndByte
    startPoint := edit.startPosition
    endPoint := edit.newEndPosition }

/-- `SyntaxSnapshot::parse_incremental` (src/syntax_snapshot.rs
lines 270-389). The base language id is read from the old snapshot's first
entry by `base_language`; it is passed here explicitly together with a
hypothesis-friendly interface. -/
def snapshotParseIncremental {Tree : Type} (env : BuildEnv Tree)
    (fuel : Nat) (oldSnapshot : Snapshot Tree) (edit : InputEdit)
    (baseLanguageId textLen : Nat) :
    Option (Snapshot Tree × List TSRange) :=
  match parseIncrLoop env oldSnapshot edit fuel
      [rootCommand baseLanguageId textLen] [] [editRange edit] with
  | none => none
  | some (entries, changedRanges) =>
    if !entries.isEmpty && firstEntryParsed entries then
      some ({ entries := entries }, changedRanges)
    else none

/-! ## Syntax trees and the cross-tree cursor
(src/syntax_snapshot.rs lines 392-495, src/highlighting_lexer/query.rs) -/

/-- A tree-sitter syntax tree as inspected by the highlight walk: node id,
kind id, byte range (internal doubled units) and ordered children. -/
inductive STree where
  | node (id : Nat) (kindId : Nat) (startByte : Nat) (endByte : Nat)
      (children : List STree)
deriving Repr

def STree.id : STree → Nat
  | .node i _ _ _ _ => i

def STree.kindId : STree → Nat
  | .node _ k _ _ _ => k

def STree.startByte : STree → Nat
  | .node _ _ s _ _ => s

def STree.endByte : STree → Nat
  | .node _ _ _ e _ => e

def STree.children : STree → List STree
  | .node _ _ _ _ cs => cs

mutual

/-- `Tree::root_node_with_offset`: the whole tree viewed shifted by a byte
offset. -/
def STree.shiftBy (off : Nat) : STree → STree
  | .node i k s e cs => .node i k (s + off) (e + off) (shiftListBy off cs)

def shiftListBy (off : Nat) : List STree → List STree
  | [] => []
  | t :: ts => t.shiftBy off :: shiftListBy off ts

end

/-- One zipper crumb: the data of the parent node together with the focused
child's previous siblings (nearest first) and following siblings. -/
structure Crumb where
  id : Nat
  kindId : Nat
  startByte : Nat
  endByte : Nat
  before : List STree
  after : List STree
deriving Repr

/-- `tree_sitter::TreeCursor` as a zipper; `crumbs` lists ancestors innermost
first. -/
structure TreeCursorM where
  crumbs : List Crumb
  focus : STree
deriving Repr

/-- Rebuild the parent node of a crumb around a focused child. -/
def crumbNode (cr : Crumb) (t : STree) : STree :=
  .node cr.id cr.kindId cr.startByte cr.endByte (cr.before.reverse ++ t :: cr.after)

/-- Zip all the way up. -/
def reconstruct : List Crumb → STree → STree
  | [], t => t
  | cr :: crs, t => reconstruct crs (crumbNode cr t)

def TreeCursorM.rootTree (c : TreeCursorM) : STree :=
  reconstruct c.crumbs c.focus

/-- `TreeCursor::goto_first_child`. -/
def TreeCursorM.gotoFirstChild (c : TreeCursorM) : Option TreeCursorM :=
  match c.focus with
  | .node _ _ _ _ [] => none
  | .node i k s e (ch :: rest) =>
    some { crumbs := { id := i, kindId := k, startByte := s, endByte := e
                       before := [], after := rest } :: c.crumbs
           focus := ch }

/-- The child scan of `TreeCursor::goto_first_child_for_byte`: the first child
that extends beyond the given byte offset, with its sibling context. -/
def firstChildForByteAux (b : Nat) :
    List STree → List STree → Option (List STree × STree × List STree)
  | _, [] => none
  | before, ch :: rest =>
    if b < ch.endByte then some (before, ch, rest)
    else firstChildForByteAux b (ch :: before) rest

/-- `TreeCursor::goto_first_child_for_byte`. -/
def TreeCursorM.gotoFirstChildForByte (c : TreeCursorM) (b : Nat) :
    Option TreeCursorM :=
  match c.focus with
  | .node i k s e cs =>
    match firstChildForByteAux b [] cs with
    | none => none
    | some (before, ch, after) =>
      some { crumbs := { id := i, kindId := k, startByte := s, endByte := e
                         before := before, after := after } :: c.crumbs
             focus := ch }

/-- `TreeCursor::goto_next_sibling`. -/
def TreeCursorM.gotoNextSibling (c : TreeCursorM) : Option TreeCursorM :=
  match c.crumbs with
  | [] => none
  | cr :: crs =>
    match cr.after with
    | [] => none
    | ns :: rest =>
      some { crumbs := { cr with before := c.focus :: cr.before, after := rest } :: crs
             focus := ns }

/-- `TreeCursor::goto_previous_sibling`. -/
def TreeCursorM.gotoPreviousSibling (c : TreeCursorM) : Option TreeCursorM :=
  match c.crumbs with
  | [] => none
  | cr :: crs =>
    match cr.before with
    | [] => none
    | ps :: rest =>
      some { crumbs := { cr with before := rest, after := c.focus :: cr.after } :: crs
             focus := ps }

/-- `TreeCursor::goto_parent`. -/
def TreeCursorM.gotoParent (c : TreeCursorM) : Option TreeCursorM :=
  match c.crumbs with
  | [] => none
  | cr :: crs => some { crumbs := crs, focus := crumbNode cr c.focus }

/-- `SyntaxSnapshotTreeCursor`: entry index and local cursor per frame; the
head of `stack` is the top of the Rust `Vec`. -/
structure SnapCursor where
  stack : List (Nat × TreeCursorM)
deriving Repr

/-- `SyntaxSnapshotTreeCursor::walk` (the base tree is walked without offset;
the root entry's offset is zero). `none` models the `main_tree` panic on a
malformed snapshot. -/
def SnapCursor.walk (snap : Snapshot STree) : Option SnapCursor :=
  match snap.entries.head? with
  | some { content := .parsed _ t, .. } =>
    some { stack := [(0, { crumbs := [], focus := t })] }
  | _ => none

/-- `SyntaxSnapshotTreeCursor::node` (the stack is never empty in the source;
the default is unreachable under the well-formedness used below). -/
def SnapCursor.node (c : SnapCursor) : STree :=
  match c.stack.head? with
  | some (_, tc) => tc.focus
  | none => .node 0 0 0 0 []

/-- `SyntaxSnapshotTreeCursor::language` (unparsed entries never appear on the
stack; out-of-range indices are unreachable). -/
def SnapCursor.language (snap : Snapshot STree) (c : SnapCursor) : Nat :=
  match c.stack.head? with
  | some (entryIdx, _) =>
    match snap.entries.get? entryIdx with
    | some { content := .parsed language _, .. } => language
    | _ => 0
  | none => 0

/-- `SyntaxSnapshotTreeCursor::goto_first_child`
(src/syntax_snapshot.rs lines 451-472). -/
def SnapCursor.gotoFirstChild (snap : Snapshot STree) (c : SnapCursor) :
    Option SnapCursor :=
  match c.stack with
  | [] => none
  | (entryIdx, tc) :: rest =>
    match tc.gotoFirstChild with
    | some tc' => some { stack := (entryIdx, tc') :: rest }
    | none =>
      match snap.entries.get? entryIdx with
      | none => none
      | some entry =>
        match snap.entries.enum.find? (fun ie =>
            ie.2.depth = entry.depth + 1 &&
            ie.2.byteRange.1 ≥ tc.focus.startByte &&
            ie.2.byteRange.2 ≤ tc.focus.endByte) with
        | some (idx, e) =>
          match e.content with
          | .parsed _ tree =>
            some { stack :=
              (idx, { crumbs := [], focus := tree.shiftBy e.byteOffset })
                :: (entryIdx, tc) :: rest }
          | .unparsed _ => none
        | none => none

/-- `SyntaxSnapshotTreeCursor::goto_first_child_for_byte`
(src/syntax_snapshot.rs lines 422-449); the candidate filter's last conjunct
compares `index` against the *current* entry's byte range, as in the source. -/
def SnapCursor.gotoFirstChildForByte (snap : Snapshot STree) (c : SnapCursor)
    (index : Nat) : Option SnapCursor :=
  match c.stack with
  | [] => none
  | (entryIdx, tc) :: rest =>
    match snap.entries.get? entryIdx with
    | none => none
    | some entry =>
      if index < entry.byteRange.1 ∨ index ≥ entry.byteRange.2 then none
      else
        match tc.gotoFirstChildForByte index with
        | some tc' => some { stack := (entryIdx, tc') :: rest }
        | none =>
          match snap.entries.enum.find? (fun ie =>
              ie.2.depth = entry.depth + 1 &&
              ie.2.byteRange.1 ≥ tc.focus.startByte &&
              ie.2.byteRange.2 ≤ tc.focus.endByte &&
              index < entry.byteRange.2) with
          | some (idx, e) =>
            match e.content with
            | .parsed _ tree =>
              some { stack :=
                (idx, { crumbs := [], focus := tree.shiftBy e.byteOffset })
                  :: (entryIdx, tc) :: rest }
            | .unparsed _ => none
          | none => none

/-- `SyntaxSnapshotTreeCursor::goto_next_sibling` (local only). -/
def SnapCursor.gotoNextSibling (c : SnapCursor) : Option SnapCursor :=
  match c.stack with
  | [] => none
  | (entryIdx, tc) :: rest =>
    (tc.gotoNextSibling).map (fun tc' => { stack := (entryIdx, tc') :: rest })

/-- `SyntaxSnapshotTreeCursor::goto_previous_sibling` (local only). -/
def SnapCursor.gotoPreviousSibling (c : SnapCursor) : Option SnapCursor :=
  match c.stack with
  | [] => none
  | (entryIdx, tc) :: rest =>
    (tc.gotoPreviousSibling).map (fun tc' => { stack := (entryIdx, tc') :: rest })

/-- `SyntaxSnapshotTreeCursor::goto_parent`
(src/syntax_snapshot.rs lines 484-494). -/
def SnapCursor.gotoParent (c : SnapCursor) : Option SnapCursor :=
  match c.stack with
  | [] => none
  | (entryIdx, tc) :: rest =>
    match tc.gotoParent with
    | some tc' => some { stack := (entryIdx, tc') :: rest }
    | none =>
      match rest with
      | [] => none
      | _ :: _ => some { stack := rest }

/-! ## The minimal-cover highlight walk (src/highlighting_lexer/query.rs) -/

/-- `highlighting_lexer::HighlightToken`; 65535 is the `u16::MAX` sentinel. -/
structure HighlightTokenM where
  languageId : Nat
  kindId : Nat
  captureId : Nat
  length : Nat
deriving DecidableEq, Repr

/-- A `ParentStackEntry = (LanguageId, usize, Range<usize>)`; the head of the
Lean list is the last element of the Rust `Vec`. -/
abbrev ParentStackEntry := Nat × Nat × (Nat × Nat)

/-- The descent loop of `find_cover_start`
(src/highlighting_lexer/query.rs lines 37-47). -/
def findCoverDescend (snap : Snapshot STree) :
    Nat → SnapCursor → List ParentStackEntry → Nat →
      Option (SnapCursor × List ParentStackEntry)
  | 0, _, _, _ => none
  | fuel + 1, c, parentStack, byteStart =>
    let node := c.node
    let parentStack :=
      (SnapCursor.language snap c, node.id, (node.startByte, node.endByte))
        :: parentStack
    match SnapCursor.gotoFirstChildForByte snap c byteStart with
    | none => some (c, parentStack)
    | some c' => findCoverDescend snap fuel c' parentStack byteStart

/-- The leftward-extension loop of `find_cover_start`
(src/highlighting_lexer/query.rs lines 52-74). -/
def findCoverLeft (snap : Snapshot STree) :
    Nat → SnapCursor → List ParentStackEntry → Nat → Nat →
      Option (Nat × List ParentStackEntry × SnapCursor)
  | 0, _, _, _, _ => none
  | fuel + 1, c, parentStack, coverStartByte, byteStart =>
    if coverStartByte < byteStart then some (coverStartByte, parentStack, c)
    else
      match SnapCursor.gotoPreviousSibling c with
      | some c' =>
        let node := c'.node
        let parentStack :=
          match parentStack with
          | _ :: tail =>
            (SnapCursor.language snap c', node.id, (node.startByte, node.endByte))
              :: tail
          | [] => parentStack
        findCoverLeft snap fuel c' parentStack node.endByte byteStart
      | none =>
        match SnapCursor.gotoParent c with
        | some c' =>
          findCoverLeft snap fuel c' parentStack.tail (c'.node.startByte) byteStart
        | none => some (0, parentStack, c)

/-- `find_cover_start` (src/highlighting_lexer/query.rs lines 31-77). -/
def findCoverStart (snap : Snapshot STree) (fuel : Nat) (byteStart : Nat) :
    Option (Nat × List ParentStackEntry × SnapCursor) :=
  match SnapCursor.walk snap with
  | none => none
  | some c =>
    match findCoverDescend snap fuel c [] byteStart with
    | none => none
    | some (c, parentStack) =>
      findCoverLeft snap fuel c parentStack (c.node.startByte) byteStart

/-- The capture id taken from the top of the highlight stack
(src/highlighting_lexer/query.rs lines 159-168 and 178-187). -/
def stackCaptureId (languageId : Nat) (highlightStack : List (Nat × Nat × Nat)) :
    Nat :=
  match highlightStack.head? with
  | some (lang, _, captureId) => if lang = languageId then captureId else 65535
  | none => 65535

/-- `token_from_node`. -/
def tokenFromNode (node : STree) (languageId : Nat)
    (highlightStack : List (Nat × Nat × Nat)) : HighlightTokenM :=
  { languageId := languageId
    kindId := node.kindId
    captureId := stackCaptureId languageId highlightStack
    length := (node.endByte - node.startByte) / 2 }

/-- `token_from_node_subrange` (gap-fill; kind is the "none" sentinel). -/
def tokenFromSubrange (s e languageId : Nat)
    (highlightStack : List (Nat × Nat × Nat)) : HighlightTokenM :=
  { languageId := languageId
    kindId := 65535
    captureId := stackCaptureId languageId highlightStack
    length := (e - s) / 2 }

/-- The highlight-stack push after moving onto a node
(src/highlighting_lexer/query.rs lines 206-213 and 244-251). `hl` is the
lookup into the highlights map computed by `collect_highlights_for_range`. -/
def pushHighlight (snap : Snapshot STree) (hl : Nat × Nat → Option (Nat × Nat × Nat))
    (c : SnapCursor) (highlightStack : List (Nat × Nat × Nat)) :
    List (Nat × Nat × Nat) :=
  let node := c.node
  match hl (node.startByte, node.endByte) with
  | some (lang, captureId, _) =>
    if SnapCursor.language snap c = lang then (lang, node.id, captureId) :: highlightStack
    else highlightStack
  | none => highlightStack

/-- The token-emission loop of `highlight_tokens_cover`
(src/highlighting_lexer/query.rs lines 191-265), fuelled; the returned `Nat`
is the final walk position `byte_current`. -/
def emitLoop (snap : Snapshot STree) (hl : Nat × Nat → Option (Nat × Nat × Nat))
    (byteEnd : Nat) :
    Nat → SnapCursor → List (Nat × Nat × Nat) → List HighlightTokenM → Nat →
      Option (List HighlightTokenM × Nat)
  | 0, _, _, _, _ => none
  | fuel + 1, c, highlightStack, tokens, byteCurrent =>
    if byteCurrent ≥ byteEnd then some (tokens, byteCurrent)
    else
      let node := c.node
      let nodeId := node.id
      if byteCurrent < node.endByte then
        match SnapCursor.gotoFirstChild snap c with
        | some c' =>
          let gap := c'.node.startByte > byteCurrent
          let tokens :=
            if gap then
              tokens ++ [tokenFromSubrange byteCurrent c'.node.startByte
                (SnapCursor.language snap c') highlightStack]
            else tokens
          let byteCurrent := if gap then c'.node.startByte else byteCurrent
          emitLoop snap hl byteEnd fuel c'
            (pushHighlight snap hl c' highlightStack) tokens byteCurrent
        | none =>
          let tokens :=
            if byteCurrent < node.startByte then
              tokens ++ [tokenFromSubrange byteCurrent node.startByte
                (SnapCursor.language snap c) highlightStack]
            else tokens
          let tokens :=
            tokens ++ [tokenFromNode node (SnapCursor.language snap c) highlightStack]
          emitLoop snap hl byteEnd fuel c highlightStack tokens node.endByte
      else
        let highlightStack :=
          match highlightStack with
          | (lang, highlightNodeId, _) :: tail =>
            if nodeId = highlightNodeId ∧ SnapCursor.language snap c = lang then tail
            else highlightStack
          | [] => highlightStack
        match SnapCursor.gotoNextSibling c with
        | some c' =>
          let gap := c'.node.startByte > byteCurrent
          let tokens :=
            if gap then
              tokens ++ [tokenFromSubrange byteCurrent c'.node.startByte
                (SnapCursor.language snap c') highlightStack]
            else tokens
          let byteCurrent := if gap then c'.node.startByte else byteCurrent
          emitLoop snap hl byteEnd fuel c'
            (pushHighlight snap hl c' highlightStack) tokens byteCurrent
        | none =>
          match SnapCursor.gotoParent c with
          | some c' =>
            let gap := c'.node.endByte > byteCurrent
            let tokens :=
              if gap then
                tokens ++ [tokenFromSubrange byteCurrent c'.node.endByte
                  (SnapCursor.language snap c') highlightStack]
              else tokens
            let byteCurrent := if gap then c'.node.endByte else byteCurrent
            emitLoop snap hl byteEnd fuel c' highlightStack tokens byteCurrent
          | none => some (tokens, byteCurrent)

/-- The seeding of the highlight stack from the ancestor chain
(src/highlighting_lexer/query.rs lines 138-151). -/
def seedHighlightStack (hl : Nat × Nat → Option (Nat × Nat × Nat))
    (parentStack : List ParentStackEntry) : List (Nat × Nat × Nat) :=
  parentStack.filterMap (fun pse =>
    let (languageId, nodeId, range) := pse
    (hl range).bind (fun h =>
      let (hLanguageId, captureId, _) := h
      if languageId = hLanguageId then some (languageId, nodeId, captureId)
      else none))

/-- `highlight_tokens_cover` (src/highlighting_lexer/query.rs lines 128-267),
with the highlights map supplied as a lookup function (its computation,
`collect_highlights_for_range`, is embedded separately above). The request
`range` is in native units. -/
def highlightTokensCover (snap : Snapshot STree)
    (hl : Nat × Nat → Option (Nat × Nat × Nat)) (fuel : Nat)
    (range : Nat × Nat) : Option (Nat × List HighlightTokenM) :=
  match findCoverStart snap fuel (range.1 * 2) with
  | none => none
  | some (byteStart, parentStack, treeCursor) =>
    let byteEnd := range.2 * 2
    let highlightStack := seedHighlightStack hl parentStack
    match emitLoop snap hl byteEnd fuel treeCursor highlightStack [] byteStart with
    | none => none
    | some (tokens, _) => some (byteStart / 2, tokens)

/-! ## Well-formedness of trees and snapshots (used as hypotheses) -/

/-- Children are ordered, non-overlapping and contained in `[lo, hi]`. -/
def chainWFB (lo hi : Nat) : List STree → Bool
  | [] => true
  | c :: rest => decide (lo ≤ c.startByte) && decide (c.endByte ≤ hi) &&
      chainWFB c.endByte hi rest

mutual

/-- Well-formed tree: even boundaries (native-unit aligned), `start ≤ end`,
children ordered and contained. -/
def STree.wfB : STree → Bool
  | .node _ _ s e cs =>
    decide (s % 2 = 0) && decide (e % 2 = 0) && decide (s ≤ e) &&
      chainWFB s e cs && STree.wfListB cs

def STree.wfListB : List STree → Bool
  | [] => true
  | t :: ts => t.wfB && STree.wfListB ts

end

/-- Well-formed snapshot entry: a parsed tree is well formed, the offset is
even, and the offset tree's root span lies inside the entry's byte range. -/
def entryWFB (e : Entry STree) : Bool :=
  match e.content with
  | .parsed _ t =>
    t.wfB && decide (e.byteOffset % 2 = 0) &&
      decide (e.byteRange.1 ≤ t.startByte + e.byteOffset) &&
      decide (t.endByte + e.byteOffset ≤ e.byteRange.2)
  | .unparsed _ => true

/-- Well-formed snapshot: every entry is well formed. -/
def snapWFB (snap : Snapshot STree) : Bool :=
  snap.entries.all entryWFB

/-- The invariant between adjacent cursor stack frames: the upper frame's
whole (offset) tree lies inside the lower frame's focused node. -/
def framesWF : List (Nat × TreeCursorM) → Prop
  | [] => True
  | (_, tc) :: rest =>
    tc.rootTree.wfB = true ∧
      (match rest with
       | [] => True
       | (_, lower) :: _ =>
         lower.focus.startByte ≤ tc.rootTree.startByte ∧
           tc.rootTree.endByte ≤ lower.focus.endByte) ∧
      framesWF rest

/-- Cursor well-formedness. -/
def SnapCursor.wfP (c : SnapCursor) : Prop :=
  c.stack ≠ [] ∧ framesWF c.stack

/-- The persistent bottom frame's whole tree (the base entry's tree). -/
def SnapCursor.baseRoot (c : SnapCursor) : STree :=
  match c.stack.getLast? with
  | some (_, tc) => tc.rootTree
  | none => .node 0 0 0 0 []

/-- Total length of a token list (native units). -/
def sumLen (tokens : List HighlightTokenM) : Nat :=
  (tokens.map HighlightTokenM.length).sum

/-! ## Concrete scenarios used by witnesses and counterexamples -/

/-- A range `[10, 20)` in internal units. -/
def rangeC3 : TSRange :=
  { startByte := 10, endByte := 20
    startPoint := { row := 0, column := 10 }, endPoint := { row := 0, column := 20 } }

/-- The document "ab\ncd\n" as UTF-16 units. -/
def txtC4 : List Nat := [97, 98, 10, 99, 100, 10]

/-- A fold range covering the whole of `txtC4` (internal units), ending right
after the trailing newline. -/
def rC4 : TSRange :=
  { startByte := 0, endByte := 12
    startPoint := { row := 0, column := 0 }, endPoint := { row := 2, column := 0 } }

/-- A helper to build a byte range with points. -/
def mkRange (s e r1 c1 r2 c2 : Nat) : TSRange :=
  { startByte := s, endByte := e
    startPoint := { row := r1, column := c1 }
    endPoint := { row := r2, column := c2 } }

/-- A helper to build a capture on a node range. -/
def mkCapture (index s e r1 c1 r2 c2 kind : Nat) : QMCapture :=
  { index := index, node := mkRange s e r1 c1 r2 c2, nodeKind := kind }

/-- A capture of pattern 0 on the byte range `[2, 6)`. -/
def itC2a : CaptureItem :=
  { qmatch := { patternIndex := 0, captures := [mkCapture 3 2 6 0 2 0 6 1] }
    cidx := 0 }

/-- A capture of pattern 1 on the same byte range `[2, 6)`. -/
def itC2b : CaptureItem :=
  { qmatch := { patternIndex := 1, captures := [mkCapture 4 2 6 0 2 0 6 1] }
    cidx := 0 }

/-- A query match with two instances of capture 0 (nodes `[0,2)` and `[4,6)`). -/
def matC9 : QueryMatchM :=
  { patternIndex := 0
    captures := [mkCapture 0 0 2 0 0 0 2 0, mkCapture 0 4 6 0 4 0 6 0] }

/-- A query match with a single instance of capture 0. -/
def matC9single : QueryMatchM :=
  { patternIndex := 0
    captures := [mkCapture 0 0 2 0 0 0 2 0] }

/-- Texts for `matC9`: the first node reads "a", the second "z". -/
def textsC9 : QMCapture → List Char :=
  fun c => if c.node.startByte = 0 then [Char.ofNat 97] else [Char.ofNat 122]

/-- A one-entry snapshot: a root node `[0,6)` with a single leaf child
`[0,6)` (a 3-native-unit token). -/
def snapC1 : Snapshot STree :=
  { entries := [
      { depth := 0
        content := .parsed 0 (.node 0 7 0 6 [.node 1 5 0 6 []])
        byteRange := (0, 12)
        byteOffset := 0
        pointOffset := { row := 0, column := 0 } }] }

/-- The main tree's root span (the base entry's tree is walked without
offset). -/
def mainRootSpan (snap : Snapshot STree) : Option (Nat × Nat) :=
  match snap.entries.head? with
  | some { content := .parsed _ t, .. } => some (t.startByte, t.endByte)
  | _ => none

/-- An injection of language name "s" covering `[4, 8)`. -/
def injC6 : InjectionMatchM :=
  { id := 0
    language := .languageName [Char.ofNat 115]
    enclosingByteRange := (4, 8)
    includedRanges := [mkRange 4 8 0 2 0 4]
    combined := false
    includeChildren := false }

/-- A build environment over `Tree := Nat`: language 0 (with injections
producing `injC6`) and language 1 (named "s"); every parse succeeds. -/
def envC6 : BuildEnv Nat :=
  { lookup := fun lid => if lid = 0 then some true
      else if lid = 1 then some false else none
    langName := fun _ => []
    lookupByName := fun s => if s = [Char.ofNat 115] then some 1 else none
    parse := fun lid _ _ _ _ => some (lid + 10)
    collectInjections := fun lid _ _ _ _ => if lid = 0 then [injC6] else []
    applyEdit := fun _ t => t + 100
    changedRanges := fun _ _ => [] }

/-- An old snapshot whose root end byte (10) does not match the edit-adjusted
new root end (12): no reuse. -/
def oldSnapC6 : Snapshot Nat :=
  { entries := [{ depth := 0, content := .parsed 0 5, byteRange := (0, 10)
                  byteOffset := 0, pointOffset := { row := 0, column := 0 } }] }

/-- A pure-replacement edit at `[2, 2)`. -/
def editC6 : InputEdit :=
  { startByte := 2, oldEndByte := 2, newEndByte := 2
    startPosition := { row := 0, column := 2 }
    oldEndPosition := { row := 0, column := 2 }
    newEndPosition := { row := 0, column := 2 } }

/-- An old snapshot whose root end byte (12) matches the edit-adjusted new
root end for `editC6` and a 6-unit document: reuse applies. -/
def oldSnapC5 : Snapshot Nat :=
  { entries := [{ depth := 0, content := .parsed 0 5, byteRange := (0, 12)
                  byteOffset := 0, pointOffset := { row := 0, column := 0 } }] }

/-- A build environment over `Tree := Nat` in which every parse fails. -/
def envC7 : BuildEnv Nat :=
  { lookup := fun _ => some false
    langName := fun _ => []
    lookupByName := fun _ => none
    parse := fun _ _ _ _ _ => none
    collectInjections := fun _ _ _ _ _ => []
    applyEdit := fun _ t => t
    changedRanges := fun _ _ => [] }

/-- An unresolved-language (mimetype) parse command at depth 1. -/
def cmdC7unknown : ParseCommand :=
  { depth := 1
    language := .unknown (.languageMimetype [Char.ofNat 120])
    includedRanges := []
    byteRange := (2, 4)
    byteOffset := 2
    pointOffset := { row := 0, column := 1 } }

/-- A compiled injection query: content capture 0, inline language capture 1,
no per-pattern settings. -/
def qC10 : InjQueryM :=
  { contentCaptureId := 0
    languageCaptureId := some 1
    mimetypeCaptureId := none
    injections := fun _ =>
      { language := none, offsets := fun _ => none
        combined := false, includeChildren := false } }

/-- A match with a content capture on `[4, 8)` and a language capture on
`[0, 2)`. -/
def matC10 : QueryMatchM :=
  { patternIndex := 0
    captures := [mkCapture 0 4 8 0 2 0 4 0, mkCapture 1 0 2 0 0 0 1 0] }

/-- Fold properties: every pattern has `fold.combined-lines` set. -/
def propsC8 : Nat → FoldProps :=
  fun _ => { foldText := none, collapsed := false, combinedLines := true }

/-- A single-line fold result on row 3, columns 4-14, next byte 22. -/
def rC8a : TSRange :=
  { startByte := 10, endByte := 20
    startPoint := { row := 3, column := 4 }, endPoint := { row := 3, column := 14 } }

/-- A single-line fold result on row 4 starting at byte 22, same column. -/
def rC8b : TSRange :=
  { startByte := 22, endByte := 30
    startPoint := { row := 4, column := 4 }, endPoint := { row := 4, column := 12 } }

/-- The composition of `highlight_tokens_cover` with the highlights map it
computes via `collect_highlights_for_range`, with the per-entry capture
streams of the external query cursor supplied as input. -/
def highlightTokensCoverFull (snap : Snapshot STree)
    (entryCaptures : List EntryCaptures) (fuel : Nat) (range : Nat × Nat) :
    Option (Nat × List HighlightTokenM) :=
  highlightTokensCover snap
    (fun r => hmGet (collectHighlightsForRange entryCaptures) r) fuel range

/-- The shape `collect_injections` guarantees for each produced match: a
non-empty included-range list whose first start and last end delimit the
enclosing byte range. -/
def injMatchWF (inj : InjectionMatchM) : Prop :=
  ∃ r0 rl, inj.includedRanges.head? = some r0 ∧
    inj.includedRanges.getLast? = some rl ∧
    inj.enclosingByteRange = (r0.startByte, rl.endByte)

/-- The single match produced by the concrete C10 collection scenario. -/
def injC10result : InjectionMatchM :=
  { id := 0
    language := .languageName [Char.ofNat 115]
    enclosingByteRange := (4, 8)
    includedRanges := [mkRange 4 8 0 2 0 4]
    combined := false
    includeChildren := false }

/-! ## Theorems -/

/-- C3: for the compiled predicate `offset!(capture, 2, -2)` (internal deltas
`(4, -4)`) applied to the captured range `[10, 20)`, the code shifts the end
byte by the *start* delta (giving 24), whereas the specified behaviour shifts
it by the end delta (giving 16): the code contradicts the evident intent of
its own `end_offset` field, which it applies to the end point but not the end
byte. -/
theorem c3_offset_end_byte_shifted_by_start_delta :
    ((compileOffsetPredicate 2 (-2)).applyToRange rangeC3).endByte = 24 ∧
      ((compileOffsetPredicate 2 (-2)).applyToRangeSpecified rangeC3).endByte = 16 ∧
      ((compileOffsetPredicate 2 (-2)).applyToRange rangeC3).startByte = 14 ∧
      (24 : Nat) ≠ 16 := by
  refine ⟨by rfl, by rfl, by rfl, by decide⟩

/-- C4: on the document "ab\ncd\n" with a fold range covering the whole text
and ending at the trailing newline, the emitted (Java-boundary) range is
shrunk to native end 5 on row 1 as required, but its end column is 0: the
code counts the empty slice `text[line_start..line_start]`, while the claimed
value (native units from the scanned line start to the new range end) is 2.
The dead backward scan shows the code contradicts its own intent. -/
theorem c4_trim_end_column_is_zero :
    (emitFoldRange txtC4 rC4).endByte = 5 ∧
      (emitFoldRange txtC4 rC4).endPoint.row = 1 ∧
      (emitFoldRange txtC4 rC4).endPoint.column = 0 ∧
      claimedEndColumn txtC4 rC4 = 2 ∧ (0 : Nat) ≠ 2 := by
  refine ⟨by rfl, by rfl, by rfl, by rfl, by decide⟩

/-- C9 counterexample: with two instances of capture 0 (texts "a" and "z") and
pattern "a", `contains?` and `not-contains?` both evaluate to `false`, so they
are not logical negations of each other although the capture has at least one
instance; `any-contains?` and `any-not-contains?` likewise both evaluate to
`true`. -/
theorem c9_negation_counterexample :
    (containsOperator 0 [Char.ofNat 97] true true).checkPredicate matC9 textsC9 = false ∧
      (containsOperator 0 [Char.ofNat 97] false true).checkPredicate matC9 textsC9 = false ∧
      (containsOperator 0 [Char.ofNat 97] true false).checkPredicate matC9 textsC9 = true ∧
      (containsOperator 0 [Char.ofNat 97] false false).checkPredicate matC9 textsC9 = true ∧
      (nodesForCaptureIndex matC9 0).length = 2 := by
  refine ⟨by rfl, by rfl, by rfl, by rfl, by rfl⟩

/-- Helper: over any node list, the all-quantified variant is the negation of
the existential variant with flipped polarity. -/
theorem checkLoopAllNotAny (cid : Nat) (pat : List Char) (pos : Bool)
    (texts : QMCapture → List Char) (l : List QMCapture) :
    checkPredicateLoop (containsOperator cid pat pos true) texts l
      = !checkPredicateLoop (containsOperator cid pat (!pos) false) texts l := by
  induction l with
  | nil => cases pos <;> rfl
  | cons n rest ih =>
    simp only [checkPredicateLoop, containsOperator]
    cases h : containsSub (texts n) pat <;> cases pos <;>
      simp_all [checkPredicateLoop, containsOperator]

/-- C9 (amended): `contains?` is the logical negation of `any-not-contains?`
and `not-contains?` the negation of `any-contains?` for any instances; the
stated pairs `contains?`/`not-contains?` and `any-contains?`/
`any-not-contains?` are negations whenever the capture has exactly one
instance in the match; with zero instances every variant returns its
`match_all` flag. -/
theorem c9_predicate_negation_amended (cid : Nat) (pat : List Char)
    (texts : QMCapture → List Char) (m : QueryMatchM) :
    ((containsOperator cid pat true true).checkPredicate m texts
        = !(containsOperator cid pat false false).checkPredicate m texts) ∧
      ((containsOperator cid pat false true).checkPredicate m texts
        = !(containsOperator cid pat true false).checkPredicate m texts) ∧
      ((nodesForCaptureIndex m cid).length = 1 →
        ((containsOperator cid pat true true).checkPredicate m texts
            = !(containsOperator cid pat false true).checkPredicate m texts) ∧
          ((containsOperator cid pat true false).checkPredicate m texts
            = !(containsOperator cid pat false false).checkPredicate m texts)) ∧
      (nodesForCaptureIndex m cid = [] →
        ∀ pos all, (containsOperator cid pat pos all).checkPredicate m texts = all) := by
  refine ⟨?_, ?_, ?_, ?_⟩
  · have h := checkLoopAllNotAny cid pat true texts (nodesForCaptureIndex m cid)
    simpa [ContainsPredicate.checkPredicate] using h
  · have h := checkLoopAllNotAny cid pat false texts (nodesForCaptureIndex m cid)
    simpa [ContainsPredicate.checkPredicate] using h
  · intro hlen
    obtain ⟨n, hn⟩ : ∃ n, nodesForCaptureIndex m cid = [n] := by
      match hl : nodesForCaptureIndex m cid with
      | [] => rw [hl] at hlen; simp at hlen
      | [n] => exact ⟨n, rfl⟩
      | _ :: _ :: _ => rw [hl] at hlen; simp at hlen
    constructor <;>
      · simp only [ContainsPredicate.checkPredicate, containsOperator, hn]
        cases h : containsSub (texts n) pat <;>
          simp [checkPredicateLoop, containsOperator, h]
  · intro hnil pos all
    simp [ContainsPredicate.checkPredicate, containsOperator, hnil, checkPredicateLoop]

/-- C9 witness: the amended negation at a concrete single-instance match. -/
theorem c9_predicate_negation_amended_witness :
    (nodesForCaptureIndex matC9single 0).length = 1 ∧
      ((containsOperator 0 [Char.ofNat 97] true true).checkPredicate matC9single textsC9
        = !(containsOperator 0 [Char.ofNat 97] false true).checkPredicate
            matC9single textsC9) :=
  ⟨by rfl,
    ((c9_predicate_negation_amended 0 [Char.ofNat 97] textsC9 matC9single).2.2.1
      (by rfl)).1⟩

/-- C2 counterexample: two same-language captures on the identical byte range
`[2, 6)` from patterns 0 and 1 (in that order): the stored entry keeps pattern
index 1, not the minimum 0 — the code's guard skips the *incoming* capture
when its pattern index is lower, so the higher index survives. -/
theorem c2_lowest_pattern_counterexample :
    hmGet (collectHighlightsForRange
        [{ language := 7, visible := fun _ => true, passes := fun _ => true
           items := [itC2a, itC2b] }]) (2, 6) = some (7, 4, 1) ∧
      min 0 1 = 0 ∧ (1 : Nat) ≠ 0 := by
  refine ⟨by rfl, by rfl, by decide⟩

/-- C2 (amended): when two capture matches of the same language produce the
exact same byte range, the entry kept in the highlights map is the one from
the pattern with the *highest* pattern index (on equal indices the later
capture overwrites); the stored pattern index is the maximum of the two. -/
theorem c2_duplicate_range_keeps_highest_pattern (lang p1 p2 : Nat)
    (cap1 cap2 : QMCapture) (vis : Nat → Bool) (pass : QueryMatchM → Bool)
    (hr1 : cap1.node.startByte = cap2.node.startByte)
    (hr2 : cap1.node.endByte = cap2.node.endByte)
    (hv1 : vis cap1.index = true) (hv2 : vis cap2.index = true)
    (hp1 : pass { patternIndex := p1, captures := [cap1] } = true)
    (hp2 : pass { patternIndex := p2, captures := [cap2] } = true) :
    hmGet (collectHighlightsForRange
        [{ language := lang, visible := vis, passes := pass
           items := [{ qmatch := { patternIndex := p1, captures := [cap1] }, cidx := 0 },
                     { qmatch := { patternIndex := p2, captures := [cap2] }, cidx := 0 }] }])
        (cap1.node.startByte, cap1.node.endByte)
      = some (if p2 < p1 then (lang, cap1.index, p1) else (lang, cap2.index, p2)) ∧
      (if p2 < p1 then p1 else p2) = max p1 p2 := by
  constructor
  · simp only [collectHighlightsForRange, List.foldl, processCapture, hp1, hp2,
      hv1, hv2, not_true, if_false, List.get?, hmGet, hmInsert, List.find?,
      List.map, List.append_nil, List.nil_append]
    simp only [hr1, hr2]
    by_cases hlt : p2 < p1 <;>
      simp [hlt, hmGet, hmInsert, List.find?, hr1, hr2]
  · by_cases hlt : p2 < p1 <;> simp [hlt] <;> omega

/-- C2 witness: the amended resolution at the concrete captures of the
counterexample scenario (patterns 0 then 1 give stored index `max 0 1 = 1`). -/
theorem c2_duplicate_range_keeps_highest_pattern_witness :
    hmGet (collectHighlightsForRange
        [{ language := 7, visible := fun _ => true, passes := fun _ => true
           items := [{ qmatch := { patternIndex := 0, captures := [mkCapture 3 2 6 0 2 0 6 1] }, cidx := 0 },
                     { qmatch := { patternIndex := 1, captures := [mkCapture 4 2 6 0 2 0 6 1] }, cidx := 0 }] }])
        (2, 6) = some (7, 4, 1) := by
  have h := c2_duplicate_range_keeps_highest_pattern 7 0 1
    (mkCapture 3 2 6 0 2 0 6 1) (mkCapture 4 2 6 0 2 0 6 1)
    (fun _ => true) (fun _ => true) rfl rfl rfl rfl rfl rfl
  simpa [mkCapture, mkRange] using h.1

/-- C8: two consecutive fold results from the same pattern with
`fold.combined-lines` set are merged into one range exactly when the earlier
result's next-byte anchor equals the later one's start byte, the start-point
columns agree, and the rows are equal or adjacent; the merged range keeps the
earlier start and takes the later end byte, end point and next-byte anchor. -/
theorem c8_fold_combination (props : Nat → FoldProps) (patternId : Nat)
    (rA rB : TSRange) (nA nB : Nat)
    (hc : (props patternId).combinedLines = true) :
    foldCombine props [(patternId, rA, nA), (patternId, rB, nB)] =
      (if nA = rB.startByte ∧ rB.startPoint.column = rA.startPoint.column ∧
          (rA.endPoint.row + 1 = rB.startPoint.row ∨
            rA.endPoint.row = rB.startPoint.row) then
        [{ patternId := patternId
           range := { rA with endByte := rB.endByte, endPoint := rB.endPoint }
           collapsed := (props patternId).collapsed
           text := (props patternId).foldText
           nextByte := nB }]
      else
        [{ patternId := patternId, range := rA
           collapsed := (props patternId).collapsed
           text := (props patternId).foldText, nextByte := nA },
         { patternId := patternId, range := rB
           collapsed := (props patternId).collapsed
           text := (props patternId).foldText, nextByte := nB }]) := by
  by_cases hcond : nA = rB.startByte ∧ rB.startPoint.column = rA.startPoint.column ∧
      (rA.endPoint.row + 1 = rB.startPoint.row ∨ rA.endPoint.row = rB.startPoint.row)
  · simp [foldCombine, List.foldl, foldCombineStep, hc, hcond]
  · simp [foldCombine, List.foldl, foldCombineStep, hc, hcond]

/-- C8 witness: two adjacent single-line fold results on rows 3 and 4 with
`fold.combined-lines` set, identical start column and contiguous
next-byte/start-byte merge into one fold range spanning rows 3-4. -/
theorem c8_fold_combination_witness :
    foldCombine propsC8 [(0, rC8a, 22), (0, rC8b, 30)] =
      [{ patternId := 0
         range := { startByte := 10, endByte := 30
                    startPoint := { row := 3, column := 4 }
                    endPoint := { row := 4, column := 12 } }
         collapsed := false, text := none, nextByte := 30 }] := by
  have h := c8_fold_combination propsC8 0 rC8a rC8b 22 30 rfl
  rw [h]
  rfl

/-- C5: in `parse_incremental`, a command at depth other than 0 never reuses a
tree, and the reuse basis is `some t` exactly when the command is at depth 0,
the old root entry exists, its end byte adjusted by the edit's length delta
(old end minus edit old-end plus edit new-end, guarded by old end at least
edit old-end) equals the new root command's end byte, the old root is parsed
with the command's language, and `t` is the old tree (cloned) with the edit
applied. -/
theorem c5_root_reuse (Tree : Type) (env : BuildEnv Tree) (old : Snapshot Tree)
    (edit : InputEdit) (cmd : ParseCommand) (lid : Nat) :
    (cmd.depth ≠ 0 → oldTreeFor env old edit cmd lid = none) ∧
      (∀ t, oldTreeFor env old edit cmd lid = some t ↔
        (cmd.depth = 0 ∧ ∃ e0 tree0, old.entries.head? = some e0 ∧
          e0.byteRange.2 ≥ edit.oldEndByte ∧
          e0.byteRange.2 - edit.oldEndByte + edit.newEndByte = cmd.byteRange.2 ∧
          e0.content = .parsed lid tree0 ∧
          t = env.applyEdit edit tree0)) := by
  constructor
  · intro hd
    unfold oldTreeFor
    simp [hd]
  · intro t
    constructor
    · intro h
      unfold oldTreeFor at h
      by_cases hd : cmd.depth = 0
      · rw [if_pos hd] at h
        cases hh : old.entries.head? with
        | none => rw [hh] at h; cases h
        | some e0 =>
          rw [hh] at h
          dsimp only at h
          by_cases hcnd : e0.byteRange.2 ≥ edit.oldEndByte ∧
              e0.byteRange.2 - edit.oldEndByte + edit.newEndByte = cmd.byteRange.2
          · rw [if_pos hcnd] at h
            cases hct : e0.content with
            | parsed lang tree =>
              rw [hct] at h
              dsimp only at h
              by_cases hl : lang = lid
              · rw [if_pos hl] at h
                refine ⟨hd, e0, tree, rfl, hcnd.1, hcnd.2, by rw [hct, hl], ?_⟩
                exact (Option.some.injEq _ _ ▸ h).symm
              · rw [if_neg hl] at h; cases h
            | unparsed l => rw [hct] at h; cases h
          · rw [if_neg hcnd] at h; cases h
      · rw [if_neg hd] at h; cases h
    · rintro ⟨hd, e0, tree0, hh, h1, h2, hct, ht⟩
      unfold oldTreeFor
      rw [if_pos hd, hh]
      dsimp only
      rw [if_pos ⟨h1, h2⟩, hct]
      dsimp only
      rw [if_pos rfl, ht]

/-- C5 witness: for the root command of a 6-unit document, an old root that
ends at byte 12 (equal to the adjusted end) and matches the language, the
reuse basis is the edited clone of the old tree. -/
theorem c5_root_reuse_witness :
    oldTreeFor envC6 oldSnapC5 editC6 (rootCommand 0 6) 0 = some 105 := by
  exact ((c5_root_reuse Nat envC6 oldSnapC5 editC6 (rootCommand 0 6) 0).2 105).mpr
    ⟨rfl, _, 5, rfl, by decide, by decide, rfl, rfl⟩

/-- Helper: processing one query match preserves the shape invariant of all
stored injection matches. -/
theorem injProcessMatchInv (q : InjQueryM) (textOf : Nat × Nat → List Char)
    (passes : QueryMatchM → Bool) (st : InjCollectState) (m : QueryMatchM)
    (hinv : ∀ x ∈ st.injections, injMatchWF x) :
    ∀ x ∈ (injProcessMatch q textOf passes st m).injections, injMatchWF x := by
  intro x hx
  have hins : ∀ (st' : InjCollectState) (nm : InjectionMatchM),
      x ∈ (injInsert st' nm).injections → x ∈ st'.injections ∨ x = nm := by
    intro st' nm hx
    unfold injInsert at hx
    split at hx
    · exact List.mem_or_eq_of_mem_set hx
    · rcases List.mem_append.mp hx with hmem | hnew
      · exact Or.inl hmem
      · exact Or.inr (List.mem_singleton.mp hnew)
  unfold injProcessMatch at hx
  split at hx
  · exact hinv x hx
  · dsimp only at hx
    rcases hqr : injCaptureFold q (q.injections m.patternIndex) textOf m.captures
      with ⟨queryRanges, queryLanguage⟩
    rw [hqr] at hx
    dsimp only at hx
    cases queryRanges with
    | nil => exact hinv x hx
    | cons rangeStart restRanges =>
      have hshape : ∀ (language : UnknownLanguage),
          x ∈ (injInsert st
            { id := m.patternIndex, language := language
              enclosingByteRange := (rangeStart.startByte,
                ((rangeStart :: restRanges).getLast (List.cons_ne_nil _ _)).endByte)
              includedRanges := rangeStart :: restRanges
              combined := (q.injections m.patternIndex).combined
              includeChildren :=
                (q.injections m.patternIndex).includeChildren }).injections →
            injMatchWF x := by
        intro language hx
        rcases hins _ _ hx with hmem | hnew
        · exact hinv x hmem
        · subst hnew
          exact ⟨rangeStart,
            (rangeStart :: restRanges).getLast (List.cons_ne_nil _ _), rfl,
            List.getLast?_eq_getLast _ _, rfl⟩
      cases hinfo : (q.injections m.patternIndex).language with
      | some l =>
        rw [hinfo] at hx
        dsimp only at hx
        exact hshape l hx
      | none =>
        rw [hinfo] at hx
        dsimp only at hx
        cases queryLanguage with
        | none => exact hinv x hx
        | some lq => exact hshape lq hx

/-- Helper: the invariant holds for all matches in the final state of the
collection folds. -/
theorem collectInjectionsInv (q : InjQueryM) (textOf : Nat × Nat → List Char)
    (passes : QueryMatchM → Bool) (matchStreams : List (List QueryMatchM)) :
    ∀ x ∈ collectInjectionsM q textOf passes matchStreams, injMatchWF x := by
  unfold collectInjectionsM
  generalize hst : ({ injections := [], injectionRanges := fun _ => none } :
    InjCollectState) = st0
  have hbase : ∀ x ∈ st0.injections, injMatchWF x := by
    subst hst; intro x hx; cases hx
  clear hst
  induction matchStreams generalizing st0 with
  | nil => exact hbase
  | cons ms rest ih =>
    simp only [List.foldl]
    apply ih
    clear ih rest
    induction ms generalizing st0 with
    | nil => exact hbase
    | cons m mrest ihm =>
      simp only [List.foldl]
      apply ihm
      exact injProcessMatchInv q textOf passes st0 m hbase

/-- C10: every injection match produced by `collect_injections` has a
non-empty included-ranges list, its enclosing byte range runs from the first
included range's start byte to the last included range's end byte, and
consequently `ParseCommand::from_injection` finds its expected first range
(the "injection always has at least one range" expectation holds). -/
theorem c10_collect_injections_shape (q : InjQueryM)
    (textOf : Nat × Nat → List Char) (passes : QueryMatchM → Bool)
    (matchStreams : List (List QueryMatchM)) (inj : InjectionMatchM)
    (hmem : inj ∈ collectInjectionsM q textOf passes matchStreams) :
    inj.includedRanges ≠ [] ∧
      (∃ r0 rl, inj.includedRanges.head? = some r0 ∧
        inj.includedRanges.getLast? = some rl ∧
        inj.enclosingByteRange = (r0.startByte, rl.endByte)) ∧
      ∀ (Tree : Type) (env : BuildEnv Tree) (depth : Nat),
        (ParseCommand.fromInjection env inj depth).isSome = true := by
  obtain ⟨r0, rl, hhead, hlast, hencl⟩ :=
    collectInjectionsInv q textOf passes matchStreams inj hmem
  refine ⟨?_, ⟨r0, rl, hhead, hlast, hencl⟩, ?_⟩
  · intro hnil
    rw [hnil] at hhead
    cases hhead
  · intro Tree env depth
    unfold ParseCommand.fromInjection
    rw [hhead]
    rfl

/-- C10 witness: a concrete collection (content capture on `[4, 8)`, inline
language capture) produces a match, and the theorem's guarantees hold for it. -/
theorem c10_collect_injections_shape_witness :
    injC10result ∈ collectInjectionsM qC10 (fun _ => [Char.ofNat 115])
        (fun _ => true) [[matC10]] ∧
      injC10result.includedRanges ≠ [] ∧
      injC10result.enclosingByteRange = (4, 8) := by
  have hrun : collectInjectionsM qC10 (fun _ => [Char.ofNat 115])
      (fun _ => true) [[matC10]] = [injC10result] := rfl
  have hmem : injC10result ∈ collectInjectionsM qC10 (fun _ => [Char.ofNat 115])
      (fun _ => true) [[matC10]] := by
    rw [hrun]
    exact List.mem_singleton.mpr rfl
  exact ⟨hmem,
    (c10_collect_injections_shape qC10 (fun _ => [Char.ofNat 115])
      (fun _ => true) [[matC10]] injC10result hmem).1, rfl⟩

/-- C7: failure handling of both construction paths. Full parse
(`SyntaxSnapshot::parse`): (i) if the root command's parse fails,
construction returns no snapshot (for any fuel); (ii) every returned
snapshot's first entry is `Parsed`; (iii) a popped command whose language is
unresolved, or whose parse fails after a successful registry lookup,
contributes exactly an `Unparsed` entry and the work loop continues rather
than aborting. Incremental parse (`SyntaxSnapshot::parse_incremental`):
(iv) if the root command's parse fails — with the reuse basis `oldTreeFor`
actually supplies for it — construction returns no snapshot; (v) every
returned snapshot's first entry is `Parsed`; (vi) a popped command whose
language is unresolved, or whose parse fails after a successful registry
lookup, contributes exactly an `Unparsed` entry and the loop continues,
leaving the changed-range accumulator untouched. -/
theorem c7_parse_failure_handling (Tree : Type) (env : BuildEnv Tree) :
    (∀ (fuel baseLanguageId textLen : Nat) (hasInj : Bool),
      env.lookup baseLanguageId = some hasInj →
      env.parse baseLanguageId [] 0 textLen none = none →
      snapshotParse env fuel baseLanguageId textLen = none) ∧
      (∀ (fuel baseLanguageId textLen : Nat) (snap : Snapshot Tree),
        snapshotParse env fuel baseLanguageId textLen = some snap →
        firstEntryParsed snap.entries = true) ∧
      (∀ (fuel : Nat) (queue queue' : List ParseCommand)
          (entries : List (Entry Tree)) (cmd : ParseCommand),
        popMin queue = some (cmd, queue') →
        (cmd.languageId = none ∨
          ∃ lid hasInj, cmd.languageId = some lid ∧
            env.lookup lid = some hasInj ∧
            env.parse lid
              (cmd.includedRanges.map (translateRange cmd.byteOffset cmd.pointOffset))
              (cmd.byteRange.1 / 2) (cmd.byteRange.2 / 2) none = none) →
        parseLoop env (fuel + 1) queue entries
          = parseLoop env fuel queue' (entries ++ [newUnparsedEntry env cmd])) ∧
      (∀ (fuel : Nat) (old : Snapshot Tree) (edit : InputEdit)
          (baseLanguageId textLen : Nat) (hasInj : Bool),
        env.lookup baseLanguageId = some hasInj →
        env.parse baseLanguageId [] 0 textLen
            (oldTreeFor env old edit (rootCommand baseLanguageId textLen)
              baseLanguageId) = none →
        snapshotParseIncremental env fuel old edit baseLanguageId textLen
          = none) ∧
      (∀ (fuel : Nat) (old : Snapshot Tree) (edit : InputEdit)
          (baseLanguageId textLen : Nat) (snap : Snapshot Tree)
          (changed : List TSRange),
        snapshotParseIncremental env fuel old edit baseLanguageId textLen
            = some (snap, changed) →
        firstEntryParsed snap.entries = true) ∧
      (∀ (fuel : Nat) (old : Snapshot Tree) (edit : InputEdit)
          (queue queue' : List ParseCommand) (entries : List (Entry Tree))
          (changed : List TSRange) (cmd : ParseCommand),
        popMin queue = some (cmd, queue') →
        (cmd.languageId = none ∨
          ∃ lid hasInj, cmd.languageId = some lid ∧
            env.lookup lid = some hasInj ∧
            env.parse lid
              (cmd.includedRanges.map (translateRange cmd.byteOffset cmd.pointOffset))
              (cmd.byteRange.1 / 2) (cmd.byteRange.2 / 2)
              (oldTreeFor env old edit cmd lid) = none) →
        parseIncrLoop env old edit (fuel + 1) queue entries changed
          = parseIncrLoop env old edit fuel queue'
              (entries ++ [newUnparsedEntry env cmd]) changed) := by
  refine ⟨?_, ?_, ?_, ?_, ?_, ?_⟩
  · intro fuel base len hasInj hlook hpfail
    unfold snapshotParse
    cases fuel with
    | zero => rfl
    | succ fuel =>
      have hdiv : len * 2 / 2 = len := by omega
      have hstep : parseLoop env (fuel + 1) [rootCommand base len] []
          = parseLoop env fuel [] [newUnparsedEntry env (rootCommand base len)] := by
        conv_lhs => rw [parseLoop]
        simp only [popMin]
        dsimp only [rootCommand, ParseCommand.languageId]
        rw [hlook]
        dsimp only
        simp only [List.map_nil, Nat.zero_div, hdiv]
        rw [hpfail]
        simp only [List.nil_append]
      rw [hstep]
      cases fuel with
      | zero => rfl
      | succ fuel =>
        have hdone : parseLoop env (fuel + 1) []
            [newUnparsedEntry env (rootCommand base len)]
            = some [newUnparsedEntry env (rootCommand base len)] := by
          conv_lhs => rw [parseLoop]
          simp only [popMin]
        rw [hdone]
        rfl
  · intro fuel base len snap hsome
    unfold snapshotParse at hsome
    cases hres : parseLoop env fuel [rootCommand base len] [] with
    | none => rw [hres] at hsome; cases hsome
    | some entries =>
      rw [hres] at hsome
      dsimp only at hsome
      by_cases hc : (!entries.isEmpty && firstEntryParsed entries) = true
      · rw [if_pos hc] at hsome
        cases hsome
        simp only [Bool.and_eq_true] at hc
        exact hc.2
      · rw [if_neg hc] at hsome
        cases hsome
  · intro fuel queue queue' entries cmd hpop hfail
    conv_lhs => rw [parseLoop]
    rw [hpop]
    dsimp only
    rcases hfail with hnone | ⟨lid, hasInj, hlid, hlook, hpfail⟩
    · rw [hnone]
    · rw [hlid]
      dsimp only
      rw [hlook]
      dsimp only
      rw [hpfail]
  · intro fuel old edit base len hasInj hlook hpfail
    unfold snapshotParseIncremental
    cases fuel with
    | zero => rfl
    | succ fuel =>
      have hdiv : len * 2 / 2 = len := by omega
      have hstep : parseIncrLoop env old edit (fuel + 1)
          [rootCommand base len] [] [editRange edit]
          = parseIncrLoop env old edit fuel []
              [newUnparsedEntry env (rootCommand base len)] [editRange edit] := by
        conv_lhs => rw [parseIncrLoop]
        simp only [popMin]
        dsimp only [rootCommand, ParseCommand.languageId]
        rw [hlook]
        dsimp only
        simp only [List.map_nil, Nat.zero_div, hdiv]
        dsimp only [rootCommand] at hpfail
        rw [hpfail]
        simp only [List.nil_append]
      rw [hstep]
      cases fuel with
      | zero => rfl
      | succ fuel =>
        have hdone : parseIncrLoop env old edit (fuel + 1) []
            [newUnparsedEntry env (rootCommand base len)] [editRange edit]
            = some ([newUnparsedEntry env (rootCommand base len)],
                [editRange edit]) := by
          conv_lhs => rw [parseIncrLoop]
          simp only [popMin]
        rw [hdone]
        rfl
  · intro fuel old edit base len snap changed hsome
    unfold snapshotParseIncremental at hsome
    cases hres : parseIncrLoop env old edit fuel [rootCommand base len] []
        [editRange edit] with
    | none => rw [hres] at hsome; cases hsome
    | some res =>
      rw [hres] at hsome
      dsimp only at hsome
      by_cases hc : (!res.1.isEmpty && firstEntryParsed res.1) = true
      · rw [if_pos hc] at hsome
        cases hsome
        simp only [Bool.and_eq_true] at hc
        exact hc.2
      · rw [if_neg hc] at hsome
        cases hsome
  · intro fuel old edit queue queue' entries changed cmd hpop hfail
    conv_lhs => rw [parseIncrLoop]
    rw [hpop]
    dsimp only
    rcases hfail with hnone | ⟨lid, hasInj, hlid, hlook, hpfail⟩
    · rw [hnone]
    · rw [hlid]
      dsimp only
      rw [hlook]
      dsimp only
      rw [hpfail]

/-- C7 witness: with an environment whose parses all fail, a 3-unit full
build and a 6-unit incremental rebuild both yield no snapshot, and an
unresolved-language command at depth 1 degrades to an `Unparsed` entry while
either work loop continues. -/
theorem c7_parse_failure_handling_witness :
    snapshotParse envC7 5 0 3 = none ∧
      parseLoop envC7 1 [cmdC7unknown] []
        = parseLoop envC7 0 [] [newUnparsedEntry envC7 cmdC7unknown] ∧
      snapshotParseIncremental envC7 5 oldSnapC5 editC6 0 6 = none ∧
      parseIncrLoop envC7 oldSnapC5 editC6 1 [cmdC7unknown] [] []
        = parseIncrLoop envC7 oldSnapC5 editC6 0 []
            [newUnparsedEntry envC7 cmdC7unknown] [] :=
  ⟨(c7_parse_failure_handling Nat envC7).1 5 0 3 false rfl rfl,
    (c7_parse_failure_handling Nat envC7).2.2.1 0 [cmdC7unknown] [] []
      cmdC7unknown rfl (Or.inl rfl),
    (c7_parse_failure_handling Nat envC7).2.2.2.1 5 oldSnapC5 editC6 0 6 false
      rfl rfl,
    (c7_parse_failure_handling Nat envC7).2.2.2.2.2 0 oldSnapC5 editC6
      [cmdC7unknown] [] [] [] cmdC7unknown rfl (Or.inl rfl)⟩

/-- C6 counterexample: in a concrete incremental rebuild (no root reuse, one
injected region at byte offset 4 whose parse command carries the
document-coordinate included range `[4, 8)`), the returned changed-range list
is the edit span followed by the *translated* range `[0, 4)`; the
document-coordinate range `[4, 8)` the claim requires is not in the list. -/
theorem c6_changed_ranges_counterexample :
    injC6.includedRanges = [mkRange 4 8 0 2 0 4] ∧
      (snapshotParseIncremental envC6 10 oldSnapC6 editC6 0 6).map Prod.snd
        = some [editRange editC6, mkRange 0 4 0 0 0 2] ∧
      mkRange 4 8 0 2 0 4 ∉ [editRange editC6, mkRange 0 4 0 0 0 2] := by
  refine ⟨rfl, by rfl, by decide⟩

/-- Helper: the incremental work loop only ever appends to the changed-range
accumulator. -/
theorem parseIncrLoopPrefix (Tree : Type) (env : BuildEnv Tree)
    (old : Snapshot Tree) (edit : InputEdit) :
    ∀ (fuel : Nat) (queue : List ParseCommand) (entries : List (Entry Tree))
      (changed : List TSRange) (res : List (Entry Tree) × List TSRange),
      parseIncrLoop env old edit fuel queue entries changed = some res →
      ∃ suffix, res.2 = changed ++ suffix := by
  intro fuel
  induction fuel with
  | zero => intro queue entries changed res h; cases h
  | succ fuel ih =>
    intro queue entries changed res h
    rw [parseIncrLoop] at h
    cases hpop : popMin queue with
    | none =>
      rw [hpop] at h
      cases h
      exact ⟨[], by simp⟩
    | some pr =>
      rw [hpop] at h
      dsimp only at h
      cases hlid : pr.1.languageId with
      | none =>
        rw [hlid] at h
        obtain ⟨suffix, hs⟩ := ih _ _ _ _ h
        exact ⟨suffix, hs⟩
      | some lid =>
        rw [hlid] at h
        dsimp only at h
        cases hlook : env.lookup lid with
        | none => rw [hlook] at h; cases h
        | some hasInj =>
          rw [hlook] at h
          dsimp only at h
          cases hp : env.parse lid
              (pr.1.includedRanges.map (translateRange pr.1.byteOffset pr.1.pointOffset))
              (pr.1.byteRange.1 / 2) (pr.1.byteRange.2 / 2)
              (oldTreeFor env old edit pr.1 lid) with
          | none =>
            rw [hp] at h
            obtain ⟨suffix, hs⟩ := ih _ _ _ _ h
            exact ⟨suffix, hs⟩
          | some tree =>
            rw [hp] at h
            obtain ⟨suffix, hs⟩ := ih _ _ _ _ h
            refine ⟨changedContribution env (oldTreeFor env old edit pr.1 lid) tree
              (pr.1.includedRanges.map (translateRange pr.1.byteOffset pr.1.pointOffset))
              ++ suffix, ?_⟩
            rw [hs, List.append_assoc]

/-- C6 (amended): (a) the returned changed-range list always starts with the
literal edited span; (b) a fresh (non-reused) successful parse appends the
command's included-ranges list *translated into the command's local
coordinate space* (start and end minus the command's byte/point offsets), not
the document-coordinate list; (c) a reused root appends the ranges reported
by the external reparse primitive's `changed_ranges`. -/
theorem c6_changed_ranges_amended (Tree : Type) (env : BuildEnv Tree) :
    (∀ (fuel : Nat) (old : Snapshot Tree) (edit : InputEdit)
        (baseLanguageId textLen : Nat) (snap : Snapshot Tree)
        (changed : List TSRange),
      snapshotParseIncremental env fuel old edit baseLanguageId textLen
          = some (snap, changed) →
      changed.head? = some (editRange edit)) ∧
      (∀ (fuel : Nat) (old : Snapshot Tree) (edit : InputEdit)
          (queue queue' : List ParseCommand) (entries : List (Entry Tree))
          (changed : List TSRange) (cmd : ParseCommand) (lid : Nat)
          (hasInj : Bool) (tree : Tree),
        popMin queue = some (cmd, queue') →
        cmd.languageId = some lid →
        env.lookup lid = some hasInj →
        oldTreeFor env old edit cmd lid = none →
        env.parse lid
            (cmd.includedRanges.map (translateRange cmd.byteOffset cmd.pointOffset))
            (cmd.byteRange.1 / 2) (cmd.byteRange.2 / 2) none = some tree →
        parseIncrLoop env old edit (fuel + 1) queue entries changed
          = parseIncrLoop env old edit fuel
              (queue' ++ childCommands env hasInj lid tree cmd)
              (entries ++ [newParsedEntry cmd lid tree])
              (changed ++
                cmd.includedRanges.map (translateRange cmd.byteOffset cmd.pointOffset))) ∧
      (∀ (fuel : Nat) (old : Snapshot Tree) (edit : InputEdit)
          (queue queue' : List ParseCommand) (entries : List (Entry Tree))
          (changed : List TSRange) (cmd : ParseCommand) (lid : Nat)
          (hasInj : Bool) (oldTree tree : Tree),
        popMin queue = some (cmd, queue') →
        cmd.languageId = some lid →
        env.lookup lid = some hasInj →
        oldTreeFor env old edit cmd lid = some oldTree →
        env.parse lid
            (cmd.includedRanges.map (translateRange cmd.byteOffset cmd.pointOffset))
            (cmd.byteRange.1 / 2) (cmd.byteRange.2 / 2) (some oldTree) = some tree →
        parseIncrLoop env old edit (fuel + 1) queue entries changed
          = parseIncrLoop env old edit fuel
              (queue' ++ childCommands env hasInj lid tree cmd)
              (entries ++ [newParsedEntry cmd lid tree])
              (changed ++ env.changedRanges oldTree tree)) := by
  refine ⟨?_, ?_, ?_⟩
  · intro fuel old edit base len snap changed hsome
    unfold snapshotParseIncremental at hsome
    cases hres : parseIncrLoop env old edit fuel [rootCommand base len] []
        [editRange edit] with
    | none => rw [hres] at hsome; cases hsome
    | some res =>
      rw [hres] at hsome
      dsimp only at hsome
      by_cases hc : (!res.1.isEmpty && firstEntryParsed res.1) = true
      · rw [if_pos hc] at hsome
        obtain ⟨suffix, hs⟩ := parseIncrLoopPrefix Tree env old edit _ _ _ _ _ hres
        cases hsome
        rw [hs]
        rfl
      · rw [if_neg hc] at hsome
        cases hsome
  · intro fuel old edit queue queue' entries changed cmd lid hasInj tree
      hpop hlid hlook hold hp
    conv_lhs => rw [parseIncrLoop]
    rw [hpop]
    dsimp only
    rw [hlid]
    dsimp only
    rw [hlook]
    dsimp only
    rw [hold, hp]
    dsimp only [changedContribution]
  · intro fuel old edit queue queue' entries changed cmd lid hasInj oldTree tree
      hpop hlid hlook hold hp
    conv_lhs => rw [parseIncrLoop]
    rw [hpop]
    dsimp only
    rw [hlid]
    dsimp only
    rw [hlook]
    dsimp only
    rw [hold, hp]
    dsimp only [changedContribution]

/-- C6 witness: the amended head property at the concrete incremental run of
the counterexample scenario. -/
theorem c6_changed_ranges_amended_witness :
    [editRange editC6, mkRange 0 4 0 0 0 2].head? = some (editRange editC6) := by
  have hrun : snapshotParseIncremental envC6 10 oldSnapC6 editC6 0 6
      = some ({ entries := [
          { depth := 0, content := .parsed 0 10, byteRange := (0, 12)
            byteOffset := 0, pointOffset := { row := 0, column := 0 } },
          { depth := 1, content := .parsed 1 11, byteRange := (4, 8)
            byteOffset := 4, pointOffset := { row := 0, column := 2 } }] },
        [editRange editC6, mkRange 0 4 0 0 0 2]) := by rfl
  exact (c6_changed_ranges_amended Nat envC6).1 10 oldSnapC6 editC6 0 6 _ _ hrun

/-- C1 counterexample: on a one-entry snapshot whose tree is a single 3-unit
leaf under the root (both spanning `[0, 6)` internal, document length 3), the
request `[0, 1)` returns cover-start 0 and a single token of length 3: the
lengths sum to 3, not to `end - cover-start = 1` — the walk emits whole
node-aligned leaves and overshoots the requested end. -/
theorem c1_cover_partition_counterexample :
    highlightTokensCover snapC1 (fun _ => none) 30 (0, 1)
      = some (0, [{ languageId := 0, kindId := 5, captureId := 65535, length := 3 }]) ∧
      sumLen [{ languageId := 0, kindId := 5, captureId := 65535, length := 3 }] = 3 ∧
      (3 : Nat) ≠ 1 - 0 := by
  refine ⟨by rfl, by rfl, by decide⟩

/-! ### Well-formedness lemmas for the cover walk -/

/-- Destructured form of tree well-formedness. -/
theorem wfBNode (i k s e : Nat) (cs : List STree) :
    (STree.node i k s e cs).wfB = true ↔
      s % 2 = 0 ∧ e % 2 = 0 ∧ s ≤ e ∧ chainWFB s e cs = true ∧
        STree.wfListB cs = true := by
  simp [STree.wfB, Bool.and_eq_true, decide_eq_true_eq, and_assoc]

theorem wfListBMem {cs : List STree} (h : STree.wfListB cs = true) {t : STree}
    (hm : t ∈ cs) : t.wfB = true := by
  induction cs with
  | nil => cases hm
  | cons a rest ih =>
    simp only [STree.wfListB, Bool.and_eq_true] at h
    rcases List.mem_cons.mp hm with rfl | hm
    · exact h.1
    · exact ih h.2 hm

theorem chainWFBHead {lo hi : Nat} {t : STree} {rest : List STree}
    (h : chainWFB lo hi (t :: rest) = true) :
    lo ≤ t.startByte ∧ t.endByte ≤ hi ∧ chainWFB t.endByte hi rest = true := by
  simp only [chainWFB, Bool.and_eq_true, decide_eq_true_eq] at h
  exact ⟨h.1.1, h.1.2, h.2⟩

theorem chainWFBMemEnd {lo hi : Nat} {cs : List STree}
    (h : chainWFB lo hi cs = true) {t : STree} (hm : t ∈ cs) :
    t.endByte ≤ hi := by
  induction cs generalizing lo with
  | nil => cases hm
  | cons a rest ih =>
    obtain ⟨_, hend, hrest⟩ := chainWFBHead h
    rcases List.mem_cons.mp hm with rfl | hm
    · exact hend
    · exact ih hrest hm

theorem chainWFBSuffix {lo hi : Nat} (l1 : List STree) {l2 : List STree}
    (h : chainWFB lo hi (l1 ++ l2) = true) :
    ∃ lo2, chainWFB lo2 hi l2 = true := by
  induction l1 generalizing lo with
  | nil => exact ⟨lo, h⟩
  | cons a rest ih =>
    obtain ⟨_, _, hrest⟩ := chainWFBHead h
    exact ih hrest

/-- Adjacent siblings are ordered: in a well-formed chain, an element ends no
later than its immediate successor starts. -/
theorem chainWFBAdjacent {lo hi : Nat} (l1 : List STree) {t ns : STree}
    {l2 : List STree} (h : chainWFB lo hi (l1 ++ t :: ns :: l2) = true) :
    t.endByte ≤ ns.startByte := by
  obtain ⟨lo2, h2⟩ := chainWFBSuffix l1 h
  obtain ⟨_, _, h3⟩ := chainWFBHead h2
  exact (chainWFBHead h3).1

/-- The focus of a well-formed reconstruction is well formed. -/
theorem reconstructWfFocus {crumbs : List Crumb} {t : STree}
    (h : (reconstruct crumbs t).wfB = true) : t.wfB = true := by
  induction crumbs generalizing t with
  | nil => exact h
  | cons cr crs ih =>
    have hcn : (crumbNode cr t).wfB = true := ih h
    rcases hcn' : crumbNode cr t with ⟨i, k, s, e, cs⟩
    rw [hcn'] at hcn
    have hmem : t ∈ cs := by
      have : cs = cr.before.reverse ++ t :: cr.after := by
        have := hcn'.symm
        simpa [crumbNode] using congrArg STree.children this
      rw [this]
      exact List.mem_append.mpr (Or.inr (List.mem_cons_self _ _))
    exact wfListBMem ((wfBNode i k s e cs).mp hcn).2.2.2.2 hmem

/-- In a well-formed chain of well-formed elements, every member starts at or
after the chain's lower bound. -/
theorem chainWFBMemStart {lo hi : Nat} {cs : List STree}
    (hchain : chainWFB lo hi cs = true) (hwf : STree.wfListB cs = true)
    {t : STree} (hm : t ∈ cs) : lo ≤ t.startByte := by
  induction cs generalizing lo with
  | nil => cases hm
  | cons a rest ih =>
    obtain ⟨hlo, _, hrest⟩ := chainWFBHead hchain
    simp only [STree.wfListB, Bool.and_eq_true] at hwf
    rcases List.mem_cons.mp hm with rfl | hm
    · exact hlo
    · have ha : a.startByte ≤ a.endByte := by
        rcases a with ⟨i, k, s, e, cs'⟩
        exact ((wfBNode i k s e cs').mp hwf.1).2.2.1
      exact le_trans (le_trans hlo ha) (ih hrest hwf.2 hm)

/-- The focus lies (in byte span) inside the full reconstruction. -/
theorem reconstructSpan {crumbs : List Crumb} {t : STree}
    (h : (reconstruct crumbs t).wfB = true) :
    (reconstruct crumbs t).startByte ≤ t.startByte ∧
      t.endByte ≤ (reconstruct crumbs t).endByte := by
  induction crumbs generalizing t with
  | nil => exact ⟨le_refl _, le_refl _⟩
  | cons cr crs ih =>
    have ihc := @ih (crumbNode cr t) h
    have hcn : (crumbNode cr t).wfB = true := @reconstructWfFocus crs (crumbNode cr t) h
    have hparts := (wfBNode cr.id cr.kindId cr.startByte cr.endByte
      (cr.before.reverse ++ t :: cr.after)).mp hcn
    have hch : chainWFB cr.startByte cr.endByte
        (cr.before.reverse ++ t :: cr.after) = true := hparts.2.2.2.1
    have hmem : t ∈ cr.before.reverse ++ t :: cr.after :=
      List.mem_append.mpr (Or.inr (List.mem_cons_self _ _))
    have hend : t.endByte ≤ cr.endByte := chainWFBMemEnd hch hmem
    have hstart : cr.startByte ≤ t.startByte :=
      chainWFBMemStart hch hparts.2.2.2.2 hmem
    exact ⟨le_trans ihc.1 hstart, le_trans hend ihc.2⟩

/-- `goto_first_child` preserves the zipped-up tree. -/
theorem rootTreeGotoFirstChild {c c' : TreeCursorM}
    (h : c.gotoFirstChild = some c') : c'.rootTree = c.rootTree := by
  rcases c with ⟨crumbs, focus⟩
  rcases focus with ⟨i, k, s, e, cs⟩
  cases cs with
  | nil => cases h
  | cons ch rest =>
    simp only [TreeCursorM.gotoFirstChild] at h
    cases h
    rfl

/-- The sibling scan returns a decomposition of the starting sibling list. -/
theorem firstChildForByteAuxSpec (b : Nat) :
    ∀ (acc cs before after : List STree) (ch : STree),
      firstChildForByteAux b acc cs = some (before, ch, after) →
      before.reverse ++ ch :: after = acc.reverse ++ cs ∧ b < ch.endByte := by
  intro acc cs
  induction cs generalizing acc with
  | nil => intro before after ch h; cases h
  | cons a rest ih =>
    intro before after ch h
    rw [firstChildForByteAux] at h
    by_cases hb : b < a.endByte
    · rw [if_pos hb] at h
      cases h
      exact ⟨rfl, hb⟩
    · rw [if_neg hb] at h
      obtain ⟨hdec, hend⟩ := ih (a :: acc) before after ch h
      constructor
      · rw [hdec]
        simp
      · exact hend

/-- `goto_first_child_for_byte` (local) preserves the zipped-up tree. -/
theorem rootTreeGotoFirstChildForByte {c c' : TreeCursorM} {b : Nat}
    (h : c.gotoFirstChildForByte b = some c') : c'.rootTree = c.rootTree := by
  rcases c with ⟨crumbs, focus⟩
  rcases focus with ⟨i, k, s, e, cs⟩
  simp only [TreeCursorM.gotoFirstChildForByte] at h
  cases haux : firstChildForByteAux b [] cs with
  | none => rw [haux] at h; cases h
  | some res =>
    rcases res with ⟨before, ch, after⟩
    rw [haux] at h
    cases h
    have hdec := (firstChildForByteAuxSpec b [] cs before after ch haux).1
    simp only [List.reverse_nil, List.nil_append] at hdec
    simp only [TreeCursorM.rootTree, reconstruct, crumbNode, hdec]

/-- `goto_next_sibling` preserves the zipped-up tree. -/
theorem rootTreeGotoNextSibling {c c' : TreeCursorM}
    (h : c.gotoNextSibling = some c') : c'.rootTree = c.rootTree := by
  rcases c with ⟨crumbs, focus⟩
  cases crumbs with
  | nil => cases h
  | cons cr crs =>
    rcases hafter : cr.after with _ | ⟨ns, rest⟩
    · simp only [TreeCursorM.gotoNextSibling, hafter] at h
      cases h
    · simp only [TreeCursorM.gotoNextSibling, hafter] at h
      cases h
      simp only [TreeCursorM.rootTree, reconstruct, crumbNode, hafter,
        List.reverse_cons, List.append_assoc, List.cons_append, List.nil_append]

/-- `goto_previous_sibling` preserves the zipped-up tree. -/
theorem rootTreeGotoPreviousSibling {c c' : TreeCursorM}
    (h : c.gotoPreviousSibling = some c') : c'.rootTree = c.rootTree := by
  rcases c with ⟨crumbs, focus⟩
  cases crumbs with
  | nil => cases h
  | cons cr crs =>
    rcases hbefore : cr.before with _ | ⟨ps, rest⟩
    · simp only [TreeCursorM.gotoPreviousSibling, hbefore] at h
      cases h
    · simp only [TreeCursorM.gotoPreviousSibling, hbefore] at h
      cases h
      simp only [TreeCursorM.rootTree, reconstruct, crumbNode, hbefore,
        List.reverse_cons, List.append_assoc, List.cons_append, List.nil_append]

/-- `goto_parent` (local) preserves the zipped-up tree. -/
theorem rootTreeGotoParent {c c' : TreeCursorM}
    (h : c.gotoParent = some c') : c'.rootTree = c.rootTree := by
  rcases c with ⟨crumbs, focus⟩
  cases crumbs with
  | nil => cases h
  | cons cr crs =>
    simp only [TreeCursorM.gotoParent] at h
    cases h
    rfl

/-- Shifting preserves the byte-span accessors. -/
theorem shiftByAccessors (off : Nat) (t : STree) :
    (t.shiftBy off).startByte = t.startByte + off ∧
      (t.shiftBy off).endByte = t.endByte + off := by
  rcases t with ⟨i, k, s, e, cs⟩
  exact ⟨rfl, rfl⟩

theorem shiftListBySpec (off : Nat) (ts : List STree) :
    shiftListBy off ts = ts.map (STree.shiftBy off) := by
  induction ts with
  | nil => rfl
  | cons a rest ih => simp [shiftListBy, ih]

/-- Shifting by an even offset preserves well-formedness. -/
theorem shiftByWf (off : Nat) (hoff : off % 2 = 0) :
    ∀ t : STree, t.wfB = true → (t.shiftBy off).wfB = true := by
  have hchain : ∀ (cs : List STree) (lo hi : Nat), chainWFB lo hi cs = true →
      chainWFB (lo + off) (hi + off) (shiftListBy off cs) = true := by
    intro cs
    induction cs with
    | nil => intro lo hi _; rfl
    | cons a rest ih =>
      intro lo hi h
      obtain ⟨h1, h2, h3⟩ := chainWFBHead h
      have ha := shiftByAccessors off a
      simp only [shiftListBy, chainWFB, Bool.and_eq_true, decide_eq_true_eq, ha.1,
        ha.2]
      exact ⟨⟨by omega, by omega⟩, ih _ _ h3⟩
  intro t
  refine @STree.rec
    (fun t => t.wfB = true → (t.shiftBy off).wfB = true)
    (fun cs => STree.wfListB cs = true →
      STree.wfListB (shiftListBy off cs) = true)
    ?_ ?_ ?_ t
  · intro i k s e cs ihcs h
    obtain ⟨h1, h2, h3, h4, h5⟩ := (wfBNode i k s e cs).mp h
    refine (wfBNode i k (s + off) (e + off) (shiftListBy off cs)).mpr
      ⟨by omega, by omega, by omega, hchain cs s e h4, ihcs h5⟩
  · intro _
    rfl
  · intro a rest iha ihrest h
    simp only [STree.wfListB, Bool.and_eq_true] at h
    simp only [shiftListBy, STree.wfListB, Bool.and_eq_true]
    exact ⟨iha h.1, ihrest h.2⟩

/-- Membership through `List.enum`. -/
theorem memOfMemEnum {α : Type} {l : List α} {i : Nat} {a : α}
    (h : (i, a) ∈ l.enum) : a ∈ l := by
  obtain ⟨h1, h2, h3⟩ := List.mem_enumFrom h
  simp only [Nat.zero_add] at h2
  simp only [Nat.sub_zero] at h3
  rw [h3]
  exact List.getElem_mem _

/-- The focused node of a well-formed snapshot cursor is well formed. -/
theorem wfPFocus {c : SnapCursor} (h : c.wfP) : c.node.wfB = true := by
  obtain ⟨hne, hfr⟩ := h
  rcases hst : c.stack with _ | ⟨⟨entryIdx, tc⟩, rest⟩
  · exact absurd hst hne
  · rw [hst] at hfr
    have hroot : tc.rootTree.wfB = true := hfr.1
    have := @reconstructWfFocus tc.crumbs tc.focus
      (by simpa [TreeCursorM.rootTree] using hroot)
    simp [SnapCursor.node, hst, this]

/-- Down the frame stack, the focused node's end is bounded by the bottom
frame's whole tree. -/
theorem framesEndBound :
    ∀ (stack : List (Nat × TreeCursorM)) (entryIdx : Nat) (tc : TreeCursorM),
      framesWF stack → stack.head? = some (entryIdx, tc) →
      ∃ jdx btc, stack.getLast? = some (jdx, btc) ∧
        tc.focus.endByte ≤ btc.rootTree.endByte := by
  intro stack
  induction stack with
  | nil => intro i tc _ hh; cases hh
  | cons f rest ih =>
    intro i tc hfr hh
    rw [List.head?_cons, Option.some.injEq] at hh
    subst hh
    cases rest with
    | nil =>
      obtain ⟨hwf, _, _⟩ := hfr
      have hfocus : tc.focus.endByte ≤ tc.rootTree.endByte :=
        (reconstructSpan (by simpa [TreeCursorM.rootTree] using hwf)).2
      exact ⟨i, tc, rfl, hfocus⟩
    | cons g grest =>
      rcases g with ⟨gi, gtc⟩
      obtain ⟨hwf, hrel, hfrRest⟩ := hfr
      have hfocus : tc.focus.endByte ≤ tc.rootTree.endByte :=
        (reconstructSpan (by simpa [TreeCursorM.rootTree] using hwf)).2
      obtain ⟨jdx, btc, hlast, hle⟩ := ih gi gtc hfrRest rfl
      exact ⟨jdx, btc, hlast, le_trans hfocus (le_trans hrel.2 hle)⟩

/-- The focused node's end never exceeds the base tree's end. -/
theorem wfPNodeEndLeBase {c : SnapCursor} (h : c.wfP) :
    c.node.endByte ≤ c.baseRoot.endByte := by
  obtain ⟨hne, hfr⟩ := h
  rcases hst : c.stack with _ | ⟨⟨entryIdx, tc⟩, rest⟩
  · exact absurd hst hne
  · rw [hst] at hfr
    obtain ⟨jdx, btc, hlast, hle⟩ :=
      framesEndBound ((entryIdx, tc) :: rest) entryIdx tc hfr rfl
    have hnode : c.node = tc.focus := by simp [SnapCursor.node, hst]
    have hbase : c.baseRoot = btc.rootTree := by
      simp [SnapCursor.baseRoot, hst, hlast]
    rw [hnode, hbase]
    exact hle

/-- Replacing the top frame's cursor by one with the same whole tree keeps the
frame invariant. -/
theorem framesWFReplaceTop {entryIdx : Nat} {tc tc' : TreeCursorM}
    {rest : List (Nat × TreeCursorM)}
    (h : framesWF ((entryIdx, tc) :: rest)) (jdx : Nat)
    (heq : tc'.rootTree = tc.rootTree) :
    framesWF ((jdx, tc') :: rest) := by
  cases rest with
  | nil =>
    obtain ⟨h1, h2, h3⟩ := h
    exact ⟨by rw [heq]; exact h1, trivial, trivial⟩
  | cons g grest =>
    rcases g with ⟨gi, gtc⟩
    obtain ⟨h1, h2, h3⟩ := h
    exact ⟨by rw [heq]; exact h1, by rw [heq]; exact h2, h3⟩

/-- Replacing the top frame's cursor by one with the same whole tree keeps the
base tree. -/
theorem baseRootReplaceTop (entryIdx jdx : Nat) {tc tc' : TreeCursorM}
    (rest : List (Nat × TreeCursorM)) (heq : tc'.rootTree = tc.rootTree) :
    SnapCursor.baseRoot { stack := (jdx, tc') :: rest }
      = SnapCursor.baseRoot { stack := (entryIdx, tc) :: rest } := by
  cases rest with
  | nil => simp [SnapCursor.baseRoot, heq]
  | cons g grest => rfl

/-- A local next-sibling move lands on a node starting no earlier than the
focus ends. -/
theorem nextSiblingAdjacent {tc tc' : TreeCursorM} (hwf : tc.rootTree.wfB = true)
    (h : tc.gotoNextSibling = some tc') : tc.focus.endByte ≤ tc'.focus.startByte := by
  rcases tc with ⟨crumbs, focus⟩
  cases crumbs with
  | nil => cases h
  | cons cr crs =>
    rcases hafter : cr.after with _ | ⟨ns, rest2⟩
    · simp only [TreeCursorM.gotoNextSibling, hafter] at h
      cases h
    · simp only [TreeCursorM.gotoNextSibling, hafter] at h
      cases h
      have hcn : (crumbNode cr focus).wfB = true := by
        have hroot : (reconstruct crs (crumbNode cr focus)).wfB = true := by
          simpa [TreeCursorM.rootTree, reconstruct] using hwf
        exact reconstructWfFocus hroot
      have hch : chainWFB cr.startByte cr.endByte
          (cr.before.reverse ++ focus :: cr.after) = true :=
        ((wfBNode cr.id cr.kindId cr.startByte cr.endByte _).mp hcn).2.2.2.1
      rw [hafter] at hch
      exact chainWFBAdjacent cr.before.reverse hch

/-- `SyntaxSnapshotTreeCursor::goto_next_sibling`: preserves well-formedness
and the base tree, and the new node starts where or after the old ends. -/
theorem snapGotoNextSiblingSpec {c c' : SnapCursor} (h : c.wfP)
    (hs : SnapCursor.gotoNextSibling c = some c') :
    c'.wfP ∧ c'.baseRoot = c.baseRoot ∧ c.node.endByte ≤ c'.node.startByte := by
  obtain ⟨hne, hfr⟩ := h
  rcases hst : c.stack with _ | ⟨⟨entryIdx, tc⟩, rest⟩
  · exact absurd hst hne
  rw [hst] at hfr
  simp only [SnapCursor.gotoNextSibling, hst] at hs
  cases hloc : tc.gotoNextSibling with
  | none => rw [hloc] at hs; cases hs
  | some tc' =>
    rw [hloc] at hs
    simp only [Option.map_some'] at hs
    cases hs
    have hroot : tc'.rootTree = tc.rootTree := rootTreeGotoNextSibling hloc
    refine ⟨⟨by simp, framesWFReplaceTop hfr entryIdx hroot⟩, ?_, ?_⟩
    · have := baseRootReplaceTop entryIdx entryIdx rest hroot
      rw [this]
      simp [SnapCursor.baseRoot, hst]
    · have hadj := nextSiblingAdjacent hfr.1 hloc
      simp only [SnapCursor.node, hst, List.head?_cons]
      exact hadj

/-- `SyntaxSnapshotTreeCursor::goto_previous_sibling`: preserves
well-formedness and the base tree. -/
theorem snapGotoPreviousSiblingSpec {c c' : SnapCursor} (h : c.wfP)
    (hs : SnapCursor.gotoPreviousSibling c = some c') :
    c'.wfP ∧ c'.baseRoot = c.baseRoot := by
  obtain ⟨hne, hfr⟩ := h
  rcases hst : c.stack with _ | ⟨⟨entryIdx, tc⟩, rest⟩
  · exact absurd hst hne
  rw [hst] at hfr
  simp only [SnapCursor.gotoPreviousSibling, hst] at hs
  cases hloc : tc.gotoPreviousSibling with
  | none => rw [hloc] at hs; cases hs
  | some tc' =>
    rw [hloc] at hs
    simp only [Option.map_some'] at hs
    cases hs
    have hroot : tc'.rootTree = tc.rootTree := rootTreeGotoPreviousSibling hloc
    refine ⟨⟨by simp, framesWFReplaceTop hfr entryIdx hroot⟩, ?_⟩
    have := baseRootReplaceTop entryIdx entryIdx rest hroot
    rw [this]
    simp [SnapCursor.baseRoot, hst]

/-- `SyntaxSnapshotTreeCursor::goto_parent`: preserves well-formedness and the
base tree, and the new node ends no earlier than the old. -/
theorem snapGotoParentSpec {c c' : SnapCursor} (h : c.wfP)
    (hs : SnapCursor.gotoParent c = some c') :
    c'.wfP ∧ c'.baseRoot = c.baseRoot ∧ c.node.endByte ≤ c'.node.endByte := by
  obtain ⟨hne, hfr⟩ := h
  rcases hst : c.stack with _ | ⟨⟨entryIdx, tc⟩, rest⟩
  · exact absurd hst hne
  rw [hst] at hfr
  simp only [SnapCursor.gotoParent, hst] at hs
  cases hloc : tc.gotoParent with
  | some tc' =>
    rw [hloc] at hs
    cases hs
    have hroot : tc'.rootTree = tc.rootTree := rootTreeGotoParent hloc
    refine ⟨⟨by simp, framesWFReplaceTop hfr entryIdx hroot⟩, ?_, ?_⟩
    · have := baseRootReplaceTop entryIdx entryIdx rest hroot
      rw [this]
      simp [SnapCursor.baseRoot, hst]
    · rcases tc with ⟨crumbs, focus⟩
      cases crumbs with
      | nil => cases hloc
      | cons cr crs =>
        simp only [TreeCursorM.gotoParent] at hloc
        cases hloc
        have hcn : (crumbNode cr focus).wfB = true := by
          have hroot2 : (reconstruct crs (crumbNode cr focus)).wfB = true := by
            have h1 := hfr.1
            simpa [TreeCursorM.rootTree, reconstruct] using h1
          exact reconstructWfFocus hroot2
        have hch : chainWFB cr.startByte cr.endByte
            (cr.before.reverse ++ focus :: cr.after) = true :=
          ((wfBNode cr.id cr.kindId cr.startByte cr.endByte _).mp hcn).2.2.2.1
        have hmem : focus ∈ cr.before.reverse ++ focus :: cr.after :=
          List.mem_append.mpr (Or.inr (List.mem_cons_self _ _))
        have := chainWFBMemEnd hch hmem
        simp only [SnapCursor.node, hst, List.head?_cons]
        simpa [crumbNode] using this
  | none =>
    rw [hloc] at hs
    cases rest with
    | nil => cases hs
    | cons g grest =>
      rcases g with ⟨gi, gtc⟩
      cases hs
      obtain ⟨hwf, hrel, hfrRest⟩ := hfr
      refine ⟨⟨by simp, hfrRest⟩, by simp [SnapCursor.baseRoot, hst], ?_⟩
      have hcrumbs : tc.crumbs = [] := by
        rcases tc with ⟨crumbs, focus⟩
        cases crumbs with
        | nil => rfl
        | cons cr crs => simp [TreeCursorM.gotoParent] at hloc
      have hfocusroot : tc.rootTree = tc.focus := by
        rw [TreeCursorM.rootTree, hcrumbs]
        rfl
      have hle : tc.rootTree.endByte ≤ gtc.focus.endByte := hrel.2
      rw [hfocusroot] at hle
      simp only [SnapCursor.node, hst, List.head?_cons]
      exact hle

/-- When `goto_parent` fails, the cursor sits on the base tree's root. -/
theorem snapGotoParentNoneNode {c : SnapCursor} (h : c.wfP)
    (hn : SnapCursor.gotoParent c = none) : c.node = c.baseRoot := by
  obtain ⟨hne, _⟩ := h
  rcases hst : c.stack with _ | ⟨⟨entryIdx, tc⟩, rest⟩
  · exact absurd hst hne
  simp only [SnapCursor.gotoParent, hst] at hn
  cases hloc : tc.gotoParent with
  | some tc' => rw [hloc] at hn; cases hn
  | none =>
    rw [hloc] at hn
    cases rest with
    | cons g grest => cases hn
    | nil =>
      have hcrumbs : tc.crumbs = [] := by
        rcases tc with ⟨crumbs, focus⟩
        cases crumbs with
        | nil => rfl
        | cons cr crs => simp [TreeCursorM.gotoParent] at hloc
      simp only [SnapCursor.node, SnapCursor.baseRoot, hst, List.head?_cons,
        List.getLast?_singleton]
      rw [TreeCursorM.rootTree, hcrumbs]
      rfl

/-- The four well-formedness components of a parsed entry. -/
theorem entryWFBParsed {e : Entry STree} {lang : Nat} {tree : STree}
    (hewf : entryWFB e = true) (hcontent : e.content = .parsed lang tree) :
    tree.wfB = true ∧ e.byteOffset % 2 = 0 ∧
      e.byteRange.1 ≤ tree.startByte + e.byteOffset ∧
      tree.endByte + e.byteOffset ≤ e.byteRange.2 := by
  unfold entryWFB at hewf
  rw [hcontent] at hewf
  simp only [Bool.and_eq_true, decide_eq_true_eq] at hewf
  exact ⟨hewf.1.1.1, hewf.1.1.2, hewf.1.2, hewf.2⟩

/-- Pushing a contained, well-formed entry frame keeps the cursor invariant;
the new node (the entry's offset tree root) lies inside the old node. -/
theorem snapPushEntrySpec {snap : Snapshot STree} (hw : snapWFB snap = true)
    {entryIdx : Nat} (idx : Nat) {tc : TreeCursorM}
    {rest : List (Nat × TreeCursorM)} {e : Entry STree} {lang : Nat}
    {tree : STree} (hfr : framesWF ((entryIdx, tc) :: rest))
    (hmem : e ∈ snap.entries) (hcontent : e.content = .parsed lang tree)
    (hlo : e.byteRange.1 ≥ tc.focus.startByte)
    (hhi : e.byteRange.2 ≤ tc.focus.endByte) :
    framesWF ((idx, { crumbs := [], focus := tree.shiftBy e.byteOffset })
        :: (entryIdx, tc) :: rest) ∧
      SnapCursor.baseRoot { stack :=
          (idx, ({ crumbs := [], focus := tree.shiftBy e.byteOffset } : TreeCursorM))
            :: (entryIdx, tc) :: rest }
        = SnapCursor.baseRoot { stack := (entryIdx, tc) :: rest } ∧
      tc.focus.startByte ≤ (tree.shiftBy e.byteOffset).startByte ∧
      (tree.shiftBy e.byteOffset).endByte ≤ tc.focus.endByte := by
  have hewf : entryWFB e = true := List.all_eq_true.mp hw e hmem
  obtain ⟨htw, hoff, hr1, hr2⟩ := entryWFBParsed hewf hcontent
  have hacc := shiftByAccessors e.byteOffset tree
  have hstart : tc.focus.startByte ≤ (tree.shiftBy e.byteOffset).startByte := by
    rw [hacc.1]; omega
  have hend : (tree.shiftBy e.byteOffset).endByte ≤ tc.focus.endByte := by
    rw [hacc.2]; omega
  have hwfShift : (tree.shiftBy e.byteOffset).wfB = true :=
    shiftByWf e.byteOffset hoff tree htw
  refine ⟨⟨?_, ⟨hstart, hend⟩, hfr⟩, rfl, hstart, hend⟩
  show (TreeCursorM.rootTree _).wfB = true
  simpa [TreeCursorM.rootTree, reconstruct] using hwfShift

/-- `SyntaxSnapshotTreeCursor::goto_first_child`: preserves well-formedness
and the base tree; the new node lies inside the old node's span. -/
theorem snapGotoFirstChildSpec {snap : Snapshot STree} (hw : snapWFB snap = true)
    {c c' : SnapCursor} (h : c.wfP)
    (hs : SnapCursor.gotoFirstChild snap c = some c') :
    c'.wfP ∧ c'.baseRoot = c.baseRoot ∧
      c.node.startByte ≤ c'.node.startByte ∧ c'.node.endByte ≤ c.node.endByte := by
  obtain ⟨hne, hfr⟩ := h
  rcases hst : c.stack with _ | ⟨⟨entryIdx, tc⟩, rest⟩
  · exact absurd hst hne
  rw [hst] at hfr
  simp only [SnapCursor.gotoFirstChild, hst] at hs
  cases hloc : tc.gotoFirstChild with
  | some tc' =>
    rw [hloc] at hs
    cases hs
    have hroot : tc'.rootTree = tc.rootTree := rootTreeGotoFirstChild hloc
    refine ⟨⟨by simp, framesWFReplaceTop hfr entryIdx hroot⟩, ?_, ?_⟩
    · have := baseRootReplaceTop entryIdx entryIdx rest hroot
      rw [this]
      simp [SnapCursor.baseRoot, hst]
    · have hfwf : tc.focus.wfB = true := by
        have h1 := hfr.1
        exact reconstructWfFocus (by simpa [TreeCursorM.rootTree] using h1)
      rcases htc : tc with ⟨crumbs, focus⟩
      rcases hfoc : focus with ⟨i, k, s, e, cs⟩
      cases cs with
      | nil => rw [htc, hfoc] at hloc; cases hloc
      | cons ch cs' =>
        rw [htc, hfoc] at hloc
        simp only [TreeCursorM.gotoFirstChild] at hloc
        cases hloc
        rw [htc, hfoc] at hfwf
        have hch := ((wfBNode i k s e (ch :: cs')).mp hfwf).2.2.2.1
        obtain ⟨h1, h2, _⟩ := chainWFBHead hch
        simp only [SnapCursor.node, hst, htc, hfoc, List.head?_cons]
        exact ⟨h1, h2⟩
  | none =>
    rw [hloc] at hs
    cases hget : snap.entries.get? entryIdx with
    | none => rw [hget] at hs; cases hs
    | some entry =>
      rw [hget] at hs
      dsimp only at hs
      cases hfind : snap.entries.enum.find? (fun ie =>
          ie.2.depth = entry.depth + 1 &&
          ie.2.byteRange.1 ≥ tc.focus.startByte &&
          ie.2.byteRange.2 ≤ tc.focus.endByte) with
      | none => rw [hfind] at hs; cases hs
      | some ie =>
        rcases ie with ⟨idx, e⟩
        rw [hfind] at hs
        dsimp only at hs
        cases hcontent : e.content with
        | unparsed l => rw [hcontent] at hs; cases hs
        | parsed lang tree =>
          rw [hcontent] at hs
          cases hs
          have hp := List.find?_some hfind
          simp only [Bool.and_eq_true, decide_eq_true_eq] at hp
          have hmem : e ∈ snap.entries := memOfMemEnum (List.mem_of_find?_eq_some hfind)
          obtain ⟨hfw, hbase, hstart, hend⟩ :=
            snapPushEntrySpec hw idx hfr hmem hcontent hp.1.2 hp.2
          refine ⟨⟨by simp, hfw⟩, ?_, ?_⟩
          · rw [hbase]
            simp [SnapCursor.baseRoot, hst]
          · simp only [SnapCursor.node, hst, List.head?_cons]
            exact ⟨hstart, hend⟩

/-- `SyntaxSnapshotTreeCursor::goto_first_child_for_byte`: preserves
well-formedness and the base tree. -/
theorem snapGotoFirstChildForByteSpec {snap : Snapshot STree}
    (hw : snapWFB snap = true) {c c' : SnapCursor} {b : Nat} (h : c.wfP)
    (hs : SnapCursor.gotoFirstChildForByte snap c b = some c') :
    c'.wfP ∧ c'.baseRoot = c.baseRoot := by
  obtain ⟨hne, hfr⟩ := h
  rcases hst : c.stack with _ | ⟨⟨entryIdx, tc⟩, rest⟩
  · exact absurd hst hne
  rw [hst] at hfr
  simp only [SnapCursor.gotoFirstChildForByte, hst] at hs
  cases hget : snap.entries.get? entryIdx with
  | none => rw [hget] at hs; cases hs
  | some entry =>
    rw [hget] at hs
    dsimp only at hs
    by_cases hguard : b < entry.byteRange.1 ∨ b ≥ entry.byteRange.2
    · rw [if_pos hguard] at hs; cases hs
    · rw [if_neg hguard] at hs
      cases hloc : tc.gotoFirstChildForByte b with
      | some tc' =>
        rw [hloc] at hs
        cases hs
        have hroot : tc'.rootTree = tc.rootTree := rootTreeGotoFirstChildForByte hloc
        refine ⟨⟨by simp, framesWFReplaceTop hfr entryIdx hroot⟩, ?_⟩
        have := baseRootReplaceTop entryIdx entryIdx rest hroot
        rw [this]
        simp [SnapCursor.baseRoot, hst]
      | none =>
        rw [hloc] at hs
        cases hfind : snap.entries.enum.find? (fun ie =>
            ie.2.depth = entry.depth + 1 &&
            ie.2.byteRange.1 ≥ tc.focus.startByte &&
            ie.2.byteRange.2 ≤ tc.focus.endByte &&
            b < entry.byteRange.2) with
        | none => rw [hfind] at hs; cases hs
        | some ie =>
          rcases ie with ⟨idx, e⟩
          rw [hfind] at hs
          dsimp only at hs
          cases hcontent : e.content with
          | unparsed l => rw [hcontent] at hs; cases hs
          | parsed lang tree =>
            rw [hcontent] at hs
            cases hs
            have hp := List.find?_some hfind
            simp only [Bool.and_eq_true, decide_eq_true_eq] at hp
            have hmem : e ∈ snap.entries :=
              memOfMemEnum (List.mem_of_find?_eq_some hfind)
            obtain ⟨hfw, hbase, _, _⟩ :=
              snapPushEntrySpec hw idx hfr hmem hcontent hp.1.1.2 hp.1.2
            refine ⟨⟨by simp, hfw⟩, ?_⟩
            rw [hbase]
            simp [SnapCursor.baseRoot, hst]

/-- `SyntaxSnapshotTreeCursor::walk` on a well-formed snapshot yields a
well-formed cursor sitting on the base tree's root. -/
theorem snapWalkSpec {snap : Snapshot STree} (hw : snapWFB snap = true)
    {c : SnapCursor} (h : SnapCursor.walk snap = some c) :
    c.wfP ∧ c.baseRoot = c.node := by
  unfold SnapCursor.walk at h
  cases hh : snap.entries.head? with
  | none => rw [hh] at h; cases h
  | some e =>
    rw [hh] at h
    have hmem : e ∈ snap.entries := by
      cases hl : snap.entries with
      | nil => rw [hl] at hh; cases hh
      | cons a rest =>
        rw [hl] at hh
        simp only [List.head?_cons, Option.some.injEq] at hh
        rw [← hh]
        exact List.mem_cons_self a rest
    have hewf : entryWFB e = true := List.all_eq_true.mp hw e hmem
    rcases e with ⟨depth, content, byteRange, byteOffset, pointOffset⟩
    cases content with
    | unparsed l => cases h
    | parsed lang tree =>
      cases h
      obtain ⟨htw, _, _, _⟩ := entryWFBParsed hewf rfl
      refine ⟨⟨by simp, ?_, trivial, trivial⟩, rfl⟩
      show (TreeCursorM.rootTree _).wfB = true
      simpa [TreeCursorM.rootTree, reconstruct] using htw

theorem sumLenAppend (l : List HighlightTokenM) (t : HighlightTokenM) :
    sumLen (l ++ [t]) = sumLen l + t.length := by
  simp [sumLen]

theorem tokenFromSubrangeLength (s e lang : Nat)
    (hstack : List (Nat × Nat × Nat)) :
    (tokenFromSubrange s e lang hstack).length = (e - s) / 2 := rfl

theorem tokenFromNodeLength (node : STree) (lang : Nat)
    (hstack : List (Nat × Nat × Nat)) :
    (tokenFromNode node lang hstack).length
      = (node.endByte - node.startByte) / 2 := rfl

/-- Byte-span parity and order facts of the focused node. -/
theorem nodeFacts {c : SnapCursor} (h : c.wfP) :
    c.node.startByte % 2 = 0 ∧ c.node.endByte % 2 = 0 ∧
      c.node.startByte ≤ c.node.endByte := by
  have hwf := wfPFocus h
  rcases hn : c.node with ⟨i, k, s, e, cs⟩
  rw [hn] at hwf
  have hparts := (wfBNode i k s e cs).mp hwf
  exact ⟨hparts.1, hparts.2.1, hparts.2.2.1⟩

/-- The central accounting invariant of the emission loop of
`highlight_tokens_cover`: when the loop returns, twice the total token length
(native units) equals the walk's advance in internal units; the final
position is even, no earlier than the start, bounded by the base tree's end,
and either reaches the requested end or sits exactly at the base tree's end. -/
theorem emitLoopSum {snap : Snapshot STree} (hw : snapWFB snap = true)
    (hl : Nat × Nat → Option (Nat × Nat × Nat)) (byteEnd : Nat) :
    ∀ (fuel : Nat) (c : SnapCursor) (hstack : List (Nat × Nat × Nat))
      (tokens tokens' : List HighlightTokenM) (b final : Nat),
      c.wfP → b % 2 = 0 → b ≤ c.node.endByte →
      (b ≤ c.node.startByte ∨ c.node.endByte ≤ b) →
      emitLoop snap hl byteEnd fuel c hstack tokens b = some (tokens', final) →
      2 * sumLen tokens' = 2 * sumLen tokens + (final - b) ∧
        b ≤ final ∧ final % 2 = 0 ∧ final ≤ c.baseRoot.endByte ∧
        (byteEnd ≤ final ∨ final = c.baseRoot.endByte) := by
  intro fuel
  induction fuel with
  | zero =>
    intro c hstack tokens tokens' b final _ _ _ _ hrun
    cases hrun
  | succ fuel ih =>
    intro c hstack tokens tokens' b final hwfp hb2 hble hpos hrun
    rw [emitLoop] at hrun
    by_cases hend : b ≥ byteEnd
    · rw [if_pos hend] at hrun
      cases hrun
      exact ⟨by omega, le_refl _, hb2,
        le_trans hble (wfPNodeEndLeBase hwfp), Or.inl hend⟩
    · rw [if_neg hend] at hrun
      dsimp only at hrun
      obtain ⟨hns2, hne2, hsle⟩ := nodeFacts hwfp
      by_cases hlt : b < c.node.endByte
      · rw [if_pos hlt] at hrun
        have hbs : b ≤ c.node.startByte := by
          rcases hpos with h | h
          · exact h
          · omega
        cases hfc : SnapCursor.gotoFirstChild snap c with
        | some c' =>
          rw [hfc] at hrun
          dsimp only at hrun
          obtain ⟨hwfp', hbase', hcs, hce⟩ := snapGotoFirstChildSpec hw hwfp hfc
          obtain ⟨hns2', hne2', hsle'⟩ := nodeFacts hwfp'
          have hbs' : b ≤ c'.node.startByte := le_trans hbs hcs
          by_cases hgap : c'.node.startByte > b
          · rw [if_pos hgap, if_pos hgap] at hrun
            obtain ⟨hsum, hbf, hf2, hfb, hfd⟩ := ih c' _ _ _ _ _ hwfp' hns2'
              hsle' (Or.inl (le_refl _)) hrun
            rw [sumLenAppend, tokenFromSubrangeLength] at hsum
            refine ⟨?_, by omega, hf2, by rw [← hbase']; exact hfb, ?_⟩
            · omega
            · rw [← hbase']; exact hfd
          · rw [if_neg hgap, if_neg hgap] at hrun
            have hbeq : b = c'.node.startByte := by omega
            obtain ⟨hsum, hbf, hf2, hfb, hfd⟩ := ih c' _ _ _ _ _ hwfp' hb2
              (by omega) (Or.inl (by omega)) hrun
            exact ⟨hsum, hbf, hf2, by rw [← hbase']; exact hfb,
              by rw [← hbase']; exact hfd⟩
        | none =>
          rw [hfc] at hrun
          by_cases hgap : b < c.node.startByte
          · rw [if_pos hgap] at hrun
            obtain ⟨hsum, hbf, hf2, hfb, hfd⟩ := ih c _ _ _ _ _ hwfp hne2
              (le_refl _) (Or.inr (le_refl _)) hrun
            rw [sumLenAppend, sumLenAppend, tokenFromSubrangeLength,
              tokenFromNodeLength] at hsum
            refine ⟨?_, by omega, hf2, hfb, hfd⟩
            omega
          · rw [if_neg hgap] at hrun
            have hbeq : b = c.node.startByte := by omega
            obtain ⟨hsum, hbf, hf2, hfb, hfd⟩ := ih c _ _ _ _ _ hwfp hne2
              (le_refl _) (Or.inr (le_refl _)) hrun
            rw [sumLenAppend, tokenFromNodeLength] at hsum
            refine ⟨?_, by omega, hf2, hfb, hfd⟩
            omega
      · rw [if_neg hlt] at hrun
        have hbeq : b = c.node.endByte := by omega
        cases hns : SnapCursor.gotoNextSibling c with
        | some c' =>
          rw [hns] at hrun
          dsimp only at hrun
          obtain ⟨hwfp', hbase', hadj⟩ := snapGotoNextSiblingSpec hwfp hns
          obtain ⟨hns2', hne2', hsle'⟩ := nodeFacts hwfp'
          have hbs' : b ≤ c'.node.startByte := by omega
          by_cases hgap : c'.node.startByte > b
          · rw [if_pos hgap, if_pos hgap] at hrun
            obtain ⟨hsum, hbf, hf2, hfb, hfd⟩ := ih c' _ _ _ _ _ hwfp' hns2'
              hsle' (Or.inl (le_refl _)) hrun
            rw [sumLenAppend, tokenFromSubrangeLength] at hsum
            refine ⟨?_, by omega, hf2, by rw [← hbase']; exact hfb, ?_⟩
            · omega
            · rw [← hbase']; exact hfd
          · rw [if_neg hgap, if_neg hgap] at hrun
            obtain ⟨hsum, hbf, hf2, hfb, hfd⟩ := ih c' _ _ _ _ _ hwfp' hb2
              (by omega) (Or.inl (by omega)) hrun
            exact ⟨hsum, hbf, hf2, by rw [← hbase']; exact hfb,
              by rw [← hbase']; exact hfd⟩
        | none =>
          rw [hns] at hrun
          dsimp only at hrun
          cases hpar : SnapCursor.gotoParent c with
          | some c' =>
            rw [hpar] at hrun
            dsimp only at hrun
            obtain ⟨hwfp', hbase', hpe⟩ := snapGotoParentSpec hwfp hpar
            obtain ⟨hns2', hne2', hsle'⟩ := nodeFacts hwfp'
            by_cases hgap : c'.node.endByte > b
            · rw [if_pos hgap, if_pos hgap] at hrun
              obtain ⟨hsum, hbf, hf2, hfb, hfd⟩ := ih c' _ _ _ _ _ hwfp' hne2'
                (le_refl _) (Or.inr (le_refl _)) hrun
              rw [sumLenAppend, tokenFromSubrangeLength] at hsum
              refine ⟨?_, by omega, hf2, by rw [← hbase']; exact hfb, ?_⟩
              · omega
              · rw [← hbase']; exact hfd
            · rw [if_neg hgap, if_neg hgap] at hrun
              have hbeq' : b = c'.node.endByte := by omega
              obtain ⟨hsum, hbf, hf2, hfb, hfd⟩ := ih c' _ _ _ _ _ hwfp' hb2
                (by omega) (Or.inr (by omega)) hrun
              exact ⟨hsum, hbf, hf2, by rw [← hbase']; exact hfb,
                by rw [← hbase']; exact hfd⟩
          | none =>
            rw [hpar] at hrun
            cases hrun
            have hroot := snapGotoParentNoneNode hwfp hpar
            refine ⟨by omega, le_refl _, hb2, ?_, Or.inr ?_⟩
            · rw [← hroot]; omega
            · rw [← hroot]; omega

/-- The descent phase of `find_cover_start` preserves cursor well-formedness
and the base tree. -/
theorem findCoverDescendSpec {snap : Snapshot STree} (hw : snapWFB snap = true) :
    ∀ (fuel : Nat) (c : SnapCursor) (ps : List ParentStackEntry)
      (byteStart : Nat) (c' : SnapCursor) (ps' : List ParentStackEntry),
      c.wfP → findCoverDescend snap fuel c ps byteStart = some (c', ps') →
      c'.wfP ∧ c'.baseRoot = c.baseRoot := by
  intro fuel
  induction fuel with
  | zero => intro c ps byteStart c' ps' _ h; cases h
  | succ fuel ih =>
    intro c ps byteStart c' ps' hwfp h
    rw [findCoverDescend] at h
    cases hfc : SnapCursor.gotoFirstChildForByte snap c byteStart with
    | none =>
      rw [hfc] at h
      cases h
      exact ⟨hwfp, rfl⟩
    | some c2 =>
      rw [hfc] at h
      obtain ⟨hwfp2, hbase2⟩ := snapGotoFirstChildForByteSpec hw hwfp hfc
      obtain ⟨hwfp', hbase'⟩ := ih c2 _ _ _ _ hwfp2 h
      exact ⟨hwfp', by rw [hbase', hbase2]⟩

/-- The leftward phase of `find_cover_start` preserves well-formedness and the
base tree, and produces an even cover position at most the requested start,
in the right relation to the final node. -/
theorem findCoverLeftSpec {snap : Snapshot STree} (_hw : snapWFB snap = true) :
    ∀ (fuel : Nat) (c : SnapCursor) (ps : List ParentStackEntry)
      (cv byteStart : Nat) (cvr : Nat) (psr : List ParentStackEntry)
      (cr : SnapCursor),
      c.wfP → cv % 2 = 0 → cv ≤ c.node.endByte →
      (cv ≤ c.node.startByte ∨ c.node.endByte ≤ cv) →
      findCoverLeft snap fuel c ps cv byteStart = some (cvr, psr, cr) →
      cr.wfP ∧ cr.baseRoot = c.baseRoot ∧ cvr % 2 = 0 ∧
        cvr ≤ cr.node.endByte ∧
        (cvr ≤ cr.node.startByte ∨ cr.node.endByte ≤ cvr) ∧ cvr ≤ byteStart := by
  intro fuel
  induction fuel with
  | zero => intro c ps cv byteStart cvr psr cr _ _ _ _ h; cases h
  | succ fuel ih =>
    intro c ps cv byteStart cvr psr cr hwfp hcv2 hcvle hcvpos h
    rw [findCoverLeft] at h
    by_cases hexit : cv < byteStart
    · rw [if_pos hexit] at h
      cases h
      exact ⟨hwfp, rfl, hcv2, hcvle, hcvpos, by omega⟩
    · rw [if_neg hexit] at h
      cases hps : SnapCursor.gotoPreviousSibling c with
      | some c2 =>
        rw [hps] at h
        dsimp only at h
        obtain ⟨hwfp2, hbase2⟩ := snapGotoPreviousSiblingSpec hwfp hps
        obtain ⟨hn1, hn2, hn3⟩ := nodeFacts hwfp2
        obtain ⟨hwfr, hbase', h1, h2, h3, h4⟩ := ih c2 _ _ _ _ _ _ hwfp2 hn2
          (le_refl _) (Or.inr (le_refl _)) h
        exact ⟨hwfr, by rw [hbase', hbase2], h1, h2, h3, h4⟩
      | none =>
        rw [hps] at h
        cases hpar : SnapCursor.gotoParent c with
        | some c2 =>
          rw [hpar] at h
          obtain ⟨hwfp2, hbase2, _⟩ := snapGotoParentSpec hwfp hpar
          obtain ⟨hn1, hn2, hn3⟩ := nodeFacts hwfp2
          obtain ⟨hwfr, hbase', h1, h2, h3, h4⟩ := ih c2 _ _ _ _ _ _ hwfp2 hn1
            hn3 (Or.inl (le_refl _)) h
          exact ⟨hwfr, by rw [hbase', hbase2], h1, h2, h3, h4⟩
        | none =>
          rw [hpar] at h
          cases h
          exact ⟨hwfp, rfl, by omega, Nat.zero_le _,
            Or.inl (Nat.zero_le _), Nat.zero_le _⟩

/-- `find_cover_start` on a well-formed snapshot: the cursor is well formed,
its base tree is the snapshot's main tree, and the cover position is an even
internal offset at most the requested start, aligned with the final node. -/
theorem findCoverStartSpec {snap : Snapshot STree} (hw : snapWFB snap = true)
    {fuel byteStart cv : Nat} {ps : List ParentStackEntry} {cr : SnapCursor}
    (h : findCoverStart snap fuel byteStart = some (cv, ps, cr)) :
    cr.wfP ∧
      mainRootSpan snap = some (cr.baseRoot.startByte, cr.baseRoot.endByte) ∧
      cv % 2 = 0 ∧ cv ≤ cr.node.endByte ∧
      (cv ≤ cr.node.startByte ∨ cr.node.endByte ≤ cv) ∧ cv ≤ byteStart := by
  unfold findCoverStart at h
  cases hwalk : SnapCursor.walk snap with
  | none => rw [hwalk] at h; cases h
  | some c0 =>
    rw [hwalk] at h
    dsimp only at h
    obtain ⟨hwfp0, hbase0⟩ := snapWalkSpec hw hwalk
    cases hdesc : findCoverDescend snap fuel c0 [] byteStart with
    | none => rw [hdesc] at h; cases h
    | some res =>
      rcases res with ⟨c1, ps1⟩
      rw [hdesc] at h
      obtain ⟨hwfp1, hbase1⟩ := findCoverDescendSpec hw fuel c0 [] byteStart c1 ps1
        hwfp0 hdesc
      obtain ⟨hn1, hn2, hn3⟩ := nodeFacts hwfp1
      obtain ⟨hwfr, hbaser, h1, h2, h3, h4⟩ := findCoverLeftSpec hw fuel c1 ps1
        _ byteStart cv ps cr hwfp1 hn1 hn3 (Or.inl (le_refl _)) h
      refine ⟨hwfr, ?_, h1, h2, h3, h4⟩
      rw [hbaser, hbase1, hbase0]
      unfold SnapCursor.walk at hwalk
      unfold mainRootSpan
      cases hh : snap.entries.head? with
      | none => rw [hh] at hwalk; cases hwalk
      | some e =>
        rw [hh] at hwalk
        rcases e with ⟨depth, content, byteRange, byteOffset, pointOffset⟩
        cases content with
        | unparsed l => cases hwalk
        | parsed lang tree =>
          cases hwalk
          rfl

/-- C1 (amended): the token run returned by `highlight_tokens_cover` starts at
a cover position at most the requested start; the tokens are emitted in walk
order as a contiguous run (each token's implicit start is the previous one's
end, so order, contiguity and non-overlap hold by construction of the
run-length output); their lengths sum to at least `end - cover-start`
whenever the requested end lies within the base tree, and for a request
`[0, len)` over a base tree spanning exactly `[0, 2*len)` the lengths sum to
exactly `len` (so the `[0, len)` tiling of the claim holds); for a general
request the run may overshoot the requested end to the next node boundary, so
the sum can exceed `end - cover-start`. -/
theorem c1_highlight_cover_amended (snap : Snapshot STree)
    (hl : Nat × Nat → Option (Nat × Nat × Nat)) (fuel : Nat)
    (range : Nat × Nat) (cover : Nat) (tokens : List HighlightTokenM)
    (hw : snapWFB snap = true)
    (hrun : highlightTokensCover snap hl fuel range = some (cover, tokens)) :
    cover ≤ range.1 ∧
      ∀ rs re, mainRootSpan snap = some (rs, re) →
        (2 * range.2 ≤ re → range.2 ≤ cover + sumLen tokens) ∧
        (range.1 = 0 → re = 2 * range.2 →
          cover = 0 ∧ sumLen tokens = range.2) := by
  unfold highlightTokensCover at hrun
  cases hfind : findCoverStart snap fuel (range.1 * 2) with
  | none => rw [hfind] at hrun; cases hrun
  | some res =>
    rcases res with ⟨byteStart, ps, tc⟩
    rw [hfind] at hrun
    dsimp only at hrun
    obtain ⟨hwfp, hspan, hcv2, hcvle, hcvpos, hcvstart⟩ := findCoverStartSpec hw hfind
    cases hemit : emitLoop snap hl (range.2 * 2) fuel tc
        (seedHighlightStack hl ps) [] byteStart with
    | none => rw [hemit] at hrun; cases hrun
    | some res2 =>
      rcases res2 with ⟨tokens2, final⟩
      obtain ⟨hsum, hbf, hf2, hfb, hfd⟩ := emitLoopSum hw hl (range.2 * 2) fuel tc
        (seedHighlightStack hl ps) [] tokens2 byteStart final hwfp hcv2 hcvle
        hcvpos hemit
      rw [hemit] at hrun
      cases hrun
      have hsum0 : sumLen ([] : List HighlightTokenM) = 0 := rfl
      rw [hsum0] at hsum
      constructor
      · omega
      · intro rs re hmain
        rw [hmain] at hspan
        have hre : re = tc.baseRoot.endByte := by
          simp only [Option.some.injEq, Prod.mk.injEq] at hspan
          exact hspan.2
        constructor
        · intro hwithin
          have hfinal : 2 * range.2 ≤ final := by
            rcases hfd with h | h
            · omega
            · omega
          omega
        · intro hstart0 hexact
          have hbs0 : byteStart = 0 := by omega
          have hfinal : final = 2 * range.2 := by
            rcases hfd with h | h
            · omega
            · omega
          omega

/-- C1 witness: on the concrete one-entry snapshot (base tree `[0, 6)`,
document length 3) the request `[0, 3)` yields cover 0 and token lengths
summing to exactly 3. -/
theorem c1_highlight_cover_amended_witness :
    highlightTokensCover snapC1 (fun _ => none) 30 (0, 3)
        = some (0, [{ languageId := 0, kindId := 5, captureId := 65535, length := 3 }]) ∧
      (0 : Nat) ≤ 0 ∧
      sumLen [(⟨0, 5, 65535, 3⟩ : HighlightTokenM)] = 3 := by
  have hrun : highlightTokensCover snapC1 (fun _ => none) 30 (0, 3)
      = some (0, [{ languageId := 0, kindId := 5, captureId := 65535, length := 3 }]) := by
    rfl
  have h := c1_highlight_cover_amended snapC1 (fun _ => none) 30 (0, 3) 0
    [(⟨0, 5, 65535, 3⟩ : HighlightTokenM)] (by rfl) hrun
  refine ⟨hrun, h.1, ?_⟩
  exact ((h.2 0 6 (by rfl)).2 rfl (by rfl)).2

end TSO
